import Mathlib

/-!
Shallow embedding of `TransitionEventAccumulator` from
`src/src/wemdtools/aframe/transacc.py`.

Modelling conventions:
* numpy index/count arrays (`uintp`, `uint64`) are modelled as `Nat`-valued
  functions.  The only subtraction the code performs on them
  (`durations = -last_exit + trans_ti + 1` and
  `fpts = -last_completion[:,fbin] + trans_ti`) is modelled with truncated
  `Nat` subtraction; on every value the code actually reads (eligible bins in
  reachable states) the minuend dominates, so this agrees with the unsigned
  wrap-around arithmetic of numpy.
* `float64` weights and bin populations are only ever copied, compared and
  stored (never combined arithmetically), so they are modelled exactly as
  rationals (`Rat`).
* The HDF5 output dataset is modelled as the list of records written so far
  (`output`); the preallocated in-memory buffer with its fill offset is
  modelled as the list of buffered records (`tdat_buffer`).
* `tdat_buffersize` is a class constant (524288) in the source; it is kept as
  a field `buffersize` so that statements about varying buffer capacity can be
  made.  `tdat_maxlen = tdat_buffersize / 10` is true division (the module
  imports `division` from `__future__`), so the trigger
  `len(tdat) > tdat_maxlen` is modelled as `10 * |tdat| > buffersize`.
* Python exceptions are modelled by `Except PyErr`: an empty `assignments`
  array makes `start_accumulation` raise `IndexError` at `timepoints[-1]`,
  and `continue_accumulation` with an unset cursor (`last_bin is None`)
  raises `TypeError` when numpy coerces `None` into the integer assignments
  array.  `PyErr.noPriorState` represents the explicit "no prior state" error
  that the specification posits; the code never produces it.
-/

namespace Transacc

/-- Per-trajectory tracking arrays of the accumulator (the five numpy arrays
allocated by `clear_state`). -/
structure Arrays where
  last_exit : Nat → Nat
  last_entry : Nat → Nat
  last_completion : Nat → Nat → Nat
  weight_last_exit : Nat → Rat
  bin_pops_last_exit : Nat → Rat

/-- The all-zero arrays produced by `clear_state`. -/
def zeroArrays : Arrays :=
  ⟨fun _ => 0, fun _ => 0, fun _ _ => 0, fun _ => 0, fun _ => 0⟩

/-- One row of the transition-data record array (`tdat_dtype`). -/
structure Rec where
  block : Nat
  timepoint : Nat
  initial_bin : Nat
  final_bin : Nat
  initial_weight : Rat
  final_weight : Rat
  initial_bin_pop : Rat
  duration : Nat
  fpt : Nat
deriving DecidableEq, Repr

/-- One timepoint of input data: timepoint index, bin assignment, trajectory
weight and the per-bin population snapshot. -/
structure Sample where
  t : Nat
  bin : Nat
  w : Rat
  pops : Nat → Rat

/-- One crossing event as extracted by the vectorized filtering in
`_accumulate_transitions` (`trans_timepoints`, `trans_weights`, `trans_ibin`,
`trans_fbin`, `trans_ibinpops`). -/
structure Crossing where
  t : Nat
  w : Rat
  ibin : Nat
  fbin : Nat
  ibinpops : Nat → Rat

/-- Zip the four parallel input arrays into a sample list (numpy `izip`
truncates at the shortest array; all callers pass equal lengths). -/
def mkSamples : List Nat → List Nat → List Rat → List (Nat → Rat) → List Sample
  | t :: ts, b :: bs, w :: ws, p :: ps => ⟨t, b, w, p⟩ :: mkSamples ts bs ws ps
  | _, _, _, _ => []

/-- Crossing extraction: a crossing at each consecutive pair of samples with
different bins; the crossing carries the arrival timepoint and weight
(`timepoints[1:]`, `weights[1:]`), the two bins, and the departure-side bin
population snapshot (`bin_pops[:-1]`). -/
def crossings : List Sample → List Crossing
  | s0 :: s1 :: rest =>
      (if s0.bin ≠ s1.bin then [⟨s1.t, s1.w, s0.bin, s1.bin, s0.pops⟩] else [])
        ++ crossings (s1 :: rest)
  | _ => []

/-- Python exceptions observable from the accumulator entry points, plus the
explicit "no prior state" error that the specification describes (and which
the code never raises). -/
inductive PyErr where
  | typeError
  | indexError
  | noPriorState
deriving DecidableEq, Repr

/-- Step 1 of processing one crossing: record the crossing event's data
(`bin_pops_last_exit[ibin]`, `last_exit[ibin]`, `last_entry[fbin]`,
`weight_last_exit[ibin]`). -/
def step1 (ar : Arrays) (c : Crossing) : Arrays :=
  { last_exit := fun i => if i = c.ibin then c.t else ar.last_exit i
    last_entry := fun i => if i = c.fbin then c.t else ar.last_entry i
    last_completion := ar.last_completion
    weight_last_exit := fun i => if i = c.ibin then c.w else ar.weight_last_exit i
    bin_pops_last_exit := fun i => if i = c.ibin then c.ibinpops c.ibin else ar.bin_pops_last_exit i }

/-- Eligibility mask `iibdisc`: `last_exit > 0` elementwise-and
`last_entry > last_completion[:,fbin]` (note: `last_entry[i]`, the entry time
of the candidate initial bin `i`). -/
def elig (ar : Arrays) (fbin i : Nat) : Bool :=
  decide (0 < ar.last_exit i ∧ ar.last_completion i fbin < ar.last_entry i)

/-- The records appended to `tdat` for one crossing: one per eligible bin, in
increasing bin order (`for iibin in iibins[iibdisc]`). -/
def crossingRecs (n : Nat) (calc_fpts : Bool) (block : Nat) (c : Crossing) (ar1 : Arrays) :
    List Rec :=
  ((List.range n).filter (fun i => elig ar1 c.fbin i)).map (fun i =>
    { block := block
      timepoint := c.t
      initial_bin := i
      final_bin := c.fbin
      initial_weight := ar1.weight_last_exit i
      final_weight := c.w
      initial_bin_pop := ar1.bin_pops_last_exit i
      duration := c.t + 1 - ar1.last_exit i
      fpt := if calc_fpts then
               (if ar1.last_completion i c.fbin = 0 then 0
                else c.t - ar1.last_completion i c.fbin)
             else 0 })

/-- Full processing of one crossing: step 1 updates, record emission, then the
tracking/statistics updates `last_completion[iibdisc,fbin] = trans_ti` and
`n_trans[iibdisc,fbin] += 1` (both masked over the `n` bins). -/
def crossingStep (n : Nat) (calc_fpts : Bool) (block : Nat) (c : Crossing)
    (ar : Arrays) (nt : Nat → Nat → Nat) :
    Arrays × (Nat → Nat → Nat) × List Rec :=
  let ar1 := step1 ar c
  let recs := crossingRecs n calc_fpts block c ar1
  let ar2 : Arrays :=
    { ar1 with
      last_completion := fun i j =>
        if i < n ∧ elig ar1 c.fbin i = true ∧ j = c.fbin then c.t
        else ar1.last_completion i j }
  let nt' : Nat → Nat → Nat := fun i j =>
    if i < n ∧ elig ar1 c.fbin i = true ∧ j = c.fbin then nt i j + 1 else nt i j
  (ar2, nt', recs)

/-- The whole accumulator object: construction parameters, tracking arrays,
continuation cursor, count matrix, record buffer and output store. -/
structure Accum where
  n_bins : Nat
  calc_fpts : Bool
  buffersize : Nat
  arrs : Arrays
  timepoint : Nat
  last_bin : Option Nat
  last_bin_pop : Option Rat
  n_trans : Nat → Nat → Nat
  tdat_buffer : List Rec
  output : List Rec

/-- The method `clear_state`: zero the tracking arrays and reset the cursor. -/
def clearStateA (a : Accum) : Accum :=
  { a with arrs := zeroArrays, timepoint := 0, last_bin := none, last_bin_pop := none }

/-- The method `clear`: `clear_state` plus zeroing `n_trans` and discarding
the buffer and output cursor (the `transitions` dataset is deleted and
recreated at the next write, so the stored content is discarded too). -/
def clearA (a : Accum) : Accum :=
  { clearStateA a with n_trans := fun _ _ => 0, tdat_buffer := [], output := [] }

/-- A freshly constructed accumulator (the constructor ends with `clear()`). -/
def mkAccum (n_bins : Nat) (calc_fpts : Bool) (buffersize : Nat) : Accum :=
  { n_bins := n_bins
    calc_fpts := calc_fpts
    buffersize := buffersize
    arrs := zeroArrays
    timepoint := 0
    last_bin := none
    last_bin_pop := none
    n_trans := fun _ _ => 0
    tdat_buffer := []
    output := [] }

/-- The method `record_transition_data`: if the batch does not fit in the
remaining buffer space, flush the buffer and write the batch directly to the
store; otherwise append it to the buffer. -/
def recordTransitionData (tdat : List Rec) (a : Accum) : Accum :=
  if tdat.length + a.tdat_buffer.length > a.buffersize then
    { a with output := a.output ++ a.tdat_buffer ++ tdat, tdat_buffer := [] }
  else
    { a with tdat_buffer := a.tdat_buffer ++ tdat }

/-- The method `flush_transition_data`: write all buffered records to the
store in order and empty the buffer. -/
def flushTransitionData (a : Accum) : Accum :=
  { a with output := a.output ++ a.tdat_buffer, tdat_buffer := [] }

/-- The crossing loop of `_accumulate_transitions`, threading the growing
`tdat` list.  After each crossing, if `len(tdat) > tdat_buffersize / 10` the
current `tdat` is passed to `record_transition_data`; the source never resets
`tdat` afterwards, so a later `record_transition_data` call receives the same
records again.  After the loop the final `record_transition_data(tdat)` runs.
Returns the accumulator together with the final `tdat` (every record emitted
by this call, each listed once). -/
def accumulateLoop (block : Nat) : List Crossing → Accum → List Rec → Accum × List Rec
  | [], a, tdat => (recordTransitionData tdat a, tdat)
  | c :: cs, a, tdat =>
      let s := crossingStep a.n_bins a.calc_fpts block c a.arrs a.n_trans
      let tdat' := tdat ++ s.2.2
      let a' : Accum := { a with arrs := s.1, n_trans := s.2.1 }
      let a'' := if 10 * tdat'.length > a.buffersize then recordTransitionData tdat' a' else a'
      accumulateLoop block cs a'' tdat'

/-- The method `_accumulate_transitions`: extract crossings, run the loop, and
update the continuation cursor from the final sample.  With an empty sample
list `timepoints[-1]` raises `IndexError` (after the loop body has already run
as a no-op); the error value models the raise. -/
def accumulateTransitions (block : Nat) (samples : List Sample) (a : Accum) :
    Except PyErr (Accum × List Rec) :=
  match samples.getLast? with
  | none => .error .indexError
  | some sl =>
      let r := accumulateLoop block (crossings samples) a []
      .ok ({ r.1 with
               timepoint := sl.t
               last_bin := some sl.bin
               last_bin_pop := some (sl.pops sl.bin) }, r.2)

/-- The method `start_accumulation`: `clear_state`, then accumulate with
`timepoints = arange(len(assignments))`. -/
def startAccumulation (assignments : List Nat) (weights : List Rat)
    (bin_pops : List (Nat → Rat)) (block : Nat) (a : Accum) :
    Except PyErr (Accum × List Rec) :=
  accumulateTransitions block
    (mkSamples (List.range assignments.length) assignments weights bin_pops)
    (clearStateA a)

/-- The method `continue_accumulation`: splice one synthetic leading sample
from the cursor (bin `last_bin`, weight `0`, population all zero except
`last_bin_pop` at `last_bin`) and accumulate with
`timepoints = arange(timepoint, timepoint + len + 1)`.  The three error
paths fire in source order, each before any accumulator state is touched:
with an unset cursor (`last_bin is None`, as after construction, `clear` or
`clear_state`) the assignment `aug_assign[0] = None` raises `TypeError`;
then the `aug_pops` allocation evaluates `len(bin_pops[0])`, which raises
`IndexError` on a zero-length `bin_pops`; then `aug_pops[0, last_bin] =
last_bin_pop` raises `TypeError` when `last_bin_pop` is `None`. -/
def continueAccumulation (assignments : List Nat) (weights : List Rat)
    (bin_pops : List (Nat → Rat)) (block : Nat) (a : Accum) :
    Except PyErr (Accum × List Rec) :=
  match a.last_bin with
  | none => .error .typeError
  | some lb =>
      match bin_pops with
      | [] => .error .indexError
      | _ :: _ =>
          match a.last_bin_pop with
          | none => .error .typeError
          | some lbp =>
              accumulateTransitions block
                (mkSamples (List.range' a.timepoint (assignments.length + 1))
                  (lb :: assignments) ((0 : Rat) :: weights)
                  ((fun i => if i = lb then lbp else 0) :: bin_pops))
                a

end Transacc

namespace Transacc

/-- Bin-population snapshot placing full weight 1 in bin `b` and 0 elsewhere
(used by the concrete scenarios). -/
def unitPops (b : Nat) : Nat → Rat := fun i => if i = b then 1 else 0

/-- Records emitted by a call (empty when the call raised). -/
def emittedOf (r : Except PyErr (Accum × List Rec)) : List Rec :=
  match r with
  | .ok p => p.2
  | .error _ => []

/-- The accumulator after a call (`dflt` when the call raised). -/
def accumOf (r : Except PyErr (Accum × List Rec)) (dflt : Accum) : Accum :=
  match r with
  | .ok p => p.1
  | .error _ => dflt

/-- The store content after a final `flush_transition_data` (empty when the
call raised). -/
def outputOf (r : Except PyErr (Accum × List Rec)) : List Rec :=
  match r with
  | .ok p => (flushTransitionData p.1).output
  | .error _ => []

/-- Clean specification-level recursion over the crossing list: the arrays,
count matrix and emitted records, without any buffering.  `accumulateLoop` is
proved to refine it. -/
def emitSpec (n : Nat) (fp : Bool) (blk : Nat) :
    List Crossing → Arrays → (Nat → Nat → Nat) → Arrays × (Nat → Nat → Nat) × List Rec
  | [], ar, nt => (ar, nt, [])
  | c :: cs, ar, nt =>
      let s := crossingStep n fp blk c ar nt
      let r := emitSpec n fp blk cs s.1 s.2.1
      (r.1, r.2.1, s.2.2 ++ r.2.2)

/-- Number of records with the given initial and final bin. -/
def histo (recs : List Rec) (i j : Nat) : Nat :=
  (recs.filter (fun r => decide (r.initial_bin = i) && decide (r.final_bin = j))).length

/-- Modelled from the corrected claim wording: the set of initial bins `i`
(in increasing order) whose transition `i → fbin` is completed by a crossing,
evaluated on the step-1-updated arrays: `last_exit[i] > 0` and
`last_entry[i] > last_completion[i][fbin]`. -/
def completedSet (n : Nat) (ar1 : Arrays) (fbin : Nat) : List Nat :=
  (List.range n).filter fun i =>
    decide (0 < ar1.last_exit i ∧ ar1.last_completion i fbin < ar1.last_entry i)

/-- Modelled from the claim wording (step 3): after a crossing at time `t`
into `fbin`, set `last_completion[i][fbin] = t` for every completed `i`. -/
def specAdvance (n : Nat) (ar1 : Arrays) (fbin t : Nat) : Arrays :=
  { ar1 with
    last_completion := fun i j =>
      if i ∈ completedSet n ar1 fbin ∧ j = fbin then t else ar1.last_completion i j }

/-- Modelled from the corrected claim wording: the `(timepoint, initial_bin,
final_bin)` triples emitted over a crossing list — per crossing, step 1 then
one triple per completed bin. -/
def specTriples (n : Nat) : List Crossing → Arrays → List (Nat × Nat × Nat)
  | [], _ => []
  | c :: cs, ar =>
      let ar1 := step1 ar c
      ((completedSet n ar1 c.fbin).map fun i => (c.t, i, c.fbin))
        ++ specTriples n cs (specAdvance n ar1 c.fbin c.t)

/-- Eligibility as literally written in the original claim C1:
`last_exit[i] > 0` and `last_entry[fbin] > last_completion[i][fbin]`. -/
def claimEligible (ar1 : Arrays) (fbin i : Nat) : Bool :=
  decide (0 < ar1.last_exit i ∧ ar1.last_completion i fbin < ar1.last_entry fbin)

/-- Projection of a record to its `(timepoint, initial_bin, final_bin)`
triple. -/
def recTriple (r : Rec) : Nat × Nat × Nat := (r.timepoint, r.initial_bin, r.final_bin)

/-- The accumulator calls appearing in claim C7: the two accumulation entry
points, `clear_state`, `get_state` (a pure read) and `set_state` (with the
snapshot's contents as payload). -/
inductive Op where
  | start (assignments : List Nat) (weights : List Rat) (bin_pops : List (Nat → Rat)) (block : Nat)
  | cont (assignments : List Nat) (weights : List Rat) (bin_pops : List (Nat → Rat)) (block : Nat)
  | clearState
  | getState
  | setState (arrs : Arrays) (timepoint : Nat) (last_bin : Option Nat) (last_bin_pop : Option Rat)

/-- Effect of one call on the accumulator, together with the records emitted
by that call. -/
def runOp (a : Accum) : Op → Except PyErr (Accum × List Rec)
  | .start assignments weights bin_pops block =>
      startAccumulation assignments weights bin_pops block a
  | .cont assignments weights bin_pops block =>
      continueAccumulation assignments weights bin_pops block a
  | .clearState => .ok (clearStateA a, [])
  | .getState => .ok (a, [])
  | .setState ar tp lb lbp =>
      .ok ({ a with arrs := ar, timepoint := tp, last_bin := lb, last_bin_pop := lbp }, [])

/-- Run a sequence of calls, collecting all emitted records; a raised
exception aborts the sequence. -/
def runOps (a : Accum) : List Op → Except PyErr (Accum × List Rec)
  | [] => .ok (a, [])
  | op :: ops =>
      match runOp a op with
      | .error e => .error e
      | .ok p =>
          match runOps p.1 ops with
          | .error e => .error e
          | .ok q => .ok (q.1, p.2 ++ q.2)

end Transacc

/-!
Heap-level model for claim C4.  The five tracking arrays live on a heap of
array bundles (they are always allocated, restored and written together);
the accumulator and snapshots hold a reference into the heap.  `get_state`
copies the arrays into a fresh cell (`.copy()` on each array), while
`set_state` installs the snapshot's arrays by reference without copying —
exactly as the Python code binds `self.last_entry = state_dict['last_entry']`
etc.  The crossing loop mutates the arrays in place through the live
reference; since no other reference is read during a call, its net effect is
modelled as one write of the final arrays to the accumulator's cell.
-/

namespace Transacc

/-- Heap of array bundles: cell contents plus the next fresh address. -/
structure Heap where
  mem : Nat → Arrays
  next : Nat

/-- Allocate a fresh cell holding `ar`. -/
def halloc (h : Heap) (ar : Arrays) : Nat × Heap :=
  (h.next, ⟨fun r => if r = h.next then ar else h.mem r, h.next + 1⟩)

/-- The mutable accumulator view: reference to its tracking arrays plus the
scalar cursor fields. -/
structure MAcc where
  n_bins : Nat
  calc_fpts : Bool
  ref : Nat
  timepoint : Nat
  last_bin : Option Nat
  last_bin_pop : Option Rat

/-- A state snapshot as returned by `get_state`: a reference to an array
bundle plus the scalar cursor values. -/
structure MSnap where
  ref : Nat
  timepoint : Nat
  last_bin : Option Nat
  last_bin_pop : Option Rat

/-- The method `get_state`: copy the live arrays into a fresh cell. -/
def mGetState (m : MAcc) (h : Heap) : MSnap × Heap :=
  let p := halloc h (h.mem m.ref)
  (⟨p.1, m.timepoint, m.last_bin, m.last_bin_pop⟩, p.2)

/-- The method `set_state`: install the snapshot's references and scalars
without copying. -/
def mSetState (s : MSnap) (m : MAcc) : MAcc :=
  { m with ref := s.ref, timepoint := s.timepoint,
           last_bin := s.last_bin, last_bin_pop := s.last_bin_pop }

/-- The method `clear_state`: bind fresh zeroed arrays (the old cell is left
behind, unaliased). -/
def mClearState (m : MAcc) (h : Heap) : MAcc × Heap :=
  let p := halloc h zeroArrays
  ({ m with ref := p.1, timepoint := 0, last_bin := none, last_bin_pop := none }, p.2)

/-- A freshly constructed accumulator and its heap. -/
def mMake (n : Nat) (fp : Bool) : MAcc × Heap :=
  mClearState ⟨n, fp, 0, 0, none, none⟩ ⟨fun _ => zeroArrays, 0⟩

/-- Net in-place effect of the crossing loop on the tracking arrays (the
count matrix and record buffer are not part of state snapshots and are
omitted from this model). -/
def foldArrays (n : Nat) (fp : Bool) (blk : Nat) (cs : List Crossing) (ar : Arrays) : Arrays :=
  (emitSpec n fp blk cs ar (fun _ _ => 0)).1

/-- Heap-level `_accumulate_transitions`: write the final arrays through the
live reference and update the cursor.  On an empty sample list the source
raises `IndexError` after the loop ran as a no-op, so nothing is written and
the cursor keeps its pre-raise value. -/
def mAccumulate (blk : Nat) (samples : List Sample) (m : MAcc) (h : Heap) : MAcc × Heap :=
  match samples.getLast? with
  | none => (m, h)
  | some sl =>
      let ar' := foldArrays m.n_bins m.calc_fpts blk (crossings samples) (h.mem m.ref)
      ({ m with timepoint := sl.t, last_bin := some sl.bin, last_bin_pop := some (sl.pops sl.bin) },
       ⟨fun r => if r = m.ref then ar' else h.mem r, h.next⟩)

/-- Heap-level `start_accumulation`. -/
def mStart (assignments : List Nat) (weights : List Rat) (bin_pops : List (Nat → Rat))
    (blk : Nat) (m : MAcc) (h : Heap) : MAcc × Heap :=
  let p := mClearState m h
  mAccumulate blk (mkSamples (List.range assignments.length) assignments weights bin_pops) p.1 p.2

/-- Heap-level `continue_accumulation`; the error paths (unset cursor
`TypeError`, zero-length `bin_pops` `IndexError` from `len(bin_pops[0])`,
unset `last_bin_pop` `TypeError`) all fire before any state is touched, so
they leave the accumulator and heap unchanged. -/
def mCont (assignments : List Nat) (weights : List Rat) (bin_pops : List (Nat → Rat))
    (blk : Nat) (m : MAcc) (h : Heap) : MAcc × Heap :=
  match m.last_bin with
  | none => (m, h)
  | some lb =>
      match bin_pops with
      | [] => (m, h)
      | _ :: _ =>
          match m.last_bin_pop with
          | none => (m, h)
          | some lbp =>
              mAccumulate blk
                (mkSamples (List.range' m.timepoint (assignments.length + 1))
                  (lb :: assignments) ((0 : Rat) :: weights)
                  ((fun i => if i = lb then lbp else 0) :: bin_pops))
                m h

/-- Heap-level accumulator calls. -/
inductive MOp where
  | start (assignments : List Nat) (weights : List Rat) (bin_pops : List (Nat → Rat)) (block : Nat)
  | cont (assignments : List Nat) (weights : List Rat) (bin_pops : List (Nat → Rat)) (block : Nat)
  | clearState
  | getState
  | setState (s : MSnap)

/-- Effect of one heap-level call (`get_state` allocates the copy and
discards the returned snapshot; referenced snapshots are introduced
explicitly in the theorems). -/
def runMOp (m : MAcc) (h : Heap) : MOp → MAcc × Heap
  | .start assignments weights bin_pops blk => mStart assignments weights bin_pops blk m h
  | .cont assignments weights bin_pops blk => mCont assignments weights bin_pops blk m h
  | .clearState => mClearState m h
  | .getState => (m, (mGetState m h).2)
  | .setState s => (mSetState s m, h)

/-- Run a sequence of heap-level calls. -/
def runMOps : List MOp → MAcc → Heap → MAcc × Heap
  | [], m, h => (m, h)
  | op :: ops, m, h =>
      let p := runMOp m h op
      runMOps ops p.1 p.2

end Transacc

namespace Transacc

@[simp] lemma recordTransitionData_arrs (t : List Rec) (a : Accum) :
    (recordTransitionData t a).arrs = a.arrs := by
  unfold recordTransitionData; split <;> rfl

@[simp] lemma recordTransitionData_n_trans (t : List Rec) (a : Accum) :
    (recordTransitionData t a).n_trans = a.n_trans := by
  unfold recordTransitionData; split <;> rfl

@[simp] lemma recordTransitionData_n_bins (t : List Rec) (a : Accum) :
    (recordTransitionData t a).n_bins = a.n_bins := by
  unfold recordTransitionData; split <;> rfl

@[simp] lemma recordTransitionData_calc_fpts (t : List Rec) (a : Accum) :
    (recordTransitionData t a).calc_fpts = a.calc_fpts := by
  unfold recordTransitionData; split <;> rfl

@[simp] lemma recordTransitionData_buffersize (t : List Rec) (a : Accum) :
    (recordTransitionData t a).buffersize = a.buffersize := by
  unfold recordTransitionData; split <;> rfl

@[simp] lemma recordTransitionData_timepoint (t : List Rec) (a : Accum) :
    (recordTransitionData t a).timepoint = a.timepoint := by
  unfold recordTransitionData; split <;> rfl

@[simp] lemma recordTransitionData_last_bin (t : List Rec) (a : Accum) :
    (recordTransitionData t a).last_bin = a.last_bin := by
  unfold recordTransitionData; split <;> rfl

@[simp] lemma recordTransitionData_last_bin_pop (t : List Rec) (a : Accum) :
    (recordTransitionData t a).last_bin_pop = a.last_bin_pop := by
  unfold recordTransitionData; split <;> rfl

/-- The buffered crossing loop refines the clean recursion `emitSpec`: the
buffering decisions never influence the tracking arrays, the count matrix or
the sequence of emitted records, and the loop leaves the construction
parameters and the cursor untouched. -/
lemma accumulateLoop_spec (blk : Nat) (cs : List Crossing) :
    ∀ (a : Accum) (tdat : List Rec),
      (accumulateLoop blk cs a tdat).1.arrs
          = (emitSpec a.n_bins a.calc_fpts blk cs a.arrs a.n_trans).1 ∧
      (accumulateLoop blk cs a tdat).1.n_trans
          = (emitSpec a.n_bins a.calc_fpts blk cs a.arrs a.n_trans).2.1 ∧
      (accumulateLoop blk cs a tdat).2
          = tdat ++ (emitSpec a.n_bins a.calc_fpts blk cs a.arrs a.n_trans).2.2 ∧
      (accumulateLoop blk cs a tdat).1.n_bins = a.n_bins ∧
      (accumulateLoop blk cs a tdat).1.calc_fpts = a.calc_fpts ∧
      (accumulateLoop blk cs a tdat).1.buffersize = a.buffersize ∧
      (accumulateLoop blk cs a tdat).1.timepoint = a.timepoint ∧
      (accumulateLoop blk cs a tdat).1.last_bin = a.last_bin ∧
      (accumulateLoop blk cs a tdat).1.last_bin_pop = a.last_bin_pop := by
  induction cs with
  | nil =>
      intro a tdat
      simp [accumulateLoop, emitSpec]
  | cons c cs ih =>
      intro a tdat
      have hstep :
          accumulateLoop blk (c :: cs) a tdat
            = accumulateLoop blk cs
                (if 10 * (tdat ++ (crossingStep a.n_bins a.calc_fpts blk c a.arrs a.n_trans).2.2).length > a.buffersize
                 then recordTransitionData
                        (tdat ++ (crossingStep a.n_bins a.calc_fpts blk c a.arrs a.n_trans).2.2)
                        { a with arrs := (crossingStep a.n_bins a.calc_fpts blk c a.arrs a.n_trans).1,
                                 n_trans := (crossingStep a.n_bins a.calc_fpts blk c a.arrs a.n_trans).2.1 }
                 else { a with arrs := (crossingStep a.n_bins a.calc_fpts blk c a.arrs a.n_trans).1,
                               n_trans := (crossingStep a.n_bins a.calc_fpts blk c a.arrs a.n_trans).2.1 })
                (tdat ++ (crossingStep a.n_bins a.calc_fpts blk c a.arrs a.n_trans).2.2) := rfl
      set s := crossingStep a.n_bins a.calc_fpts blk c a.arrs a.n_trans with hs
      set a'' :=
        (if 10 * (tdat ++ s.2.2).length > a.buffersize
         then recordTransitionData (tdat ++ s.2.2) { a with arrs := s.1, n_trans := s.2.1 }
         else { a with arrs := s.1, n_trans := s.2.1 }) with ha''
      have hfields : a''.arrs = s.1 ∧ a''.n_trans = s.2.1 ∧ a''.n_bins = a.n_bins ∧
          a''.calc_fpts = a.calc_fpts ∧ a''.buffersize = a.buffersize ∧
          a''.timepoint = a.timepoint ∧ a''.last_bin = a.last_bin ∧
          a''.last_bin_pop = a.last_bin_pop := by
        rw [ha'']
        split <;> simp
      obtain ⟨f1, f2, f3, f4, f5, f6, f7, f8⟩ := hfields
      have h := ih a'' (tdat ++ s.2.2)
      rw [hstep]
      rw [f1, f2, f3, f4] at h
      have hemit : emitSpec a.n_bins a.calc_fpts blk (c :: cs) a.arrs a.n_trans
          = ((emitSpec a.n_bins a.calc_fpts blk cs s.1 s.2.1).1,
             (emitSpec a.n_bins a.calc_fpts blk cs s.1 s.2.1).2.1,
             s.2.2 ++ (emitSpec a.n_bins a.calc_fpts blk cs s.1 s.2.1).2.2) := rfl
      rw [hemit]
      refine ⟨h.1, h.2.1, ?_, h.2.2.2.1, h.2.2.2.2.1, h.2.2.2.2.2.1.trans f5,
        h.2.2.2.2.2.2.1.trans f6, h.2.2.2.2.2.2.2.1.trans f7,
        h.2.2.2.2.2.2.2.2.trans f8⟩
      rw [h.2.2.1, List.append_assoc]

/-- `emitSpec` over a concatenation of crossing lists. -/
lemma emitSpec_append (n : Nat) (fp : Bool) (blk : Nat) (cs1 cs2 : List Crossing) :
    ∀ (ar : Arrays) (nt : Nat → Nat → Nat),
      emitSpec n fp blk (cs1 ++ cs2) ar nt
        = ((emitSpec n fp blk cs2 (emitSpec n fp blk cs1 ar nt).1
              (emitSpec n fp blk cs1 ar nt).2.1).1,
           (emitSpec n fp blk cs2 (emitSpec n fp blk cs1 ar nt).1
              (emitSpec n fp blk cs1 ar nt).2.1).2.1,
           (emitSpec n fp blk cs1 ar nt).2.2
             ++ (emitSpec n fp blk cs2 (emitSpec n fp blk cs1 ar nt).1
                   (emitSpec n fp blk cs1 ar nt).2.1).2.2) := by
  induction cs1 with
  | nil => intro ar nt; simp [emitSpec]
  | cons c cs ih =>
      intro ar nt
      simp only [List.cons_append, emitSpec]
      simp only [List.append_eq]
      rw [ih]
      simp [List.append_assoc]

end Transacc

namespace Transacc

lemma histo_append (l1 l2 : List Rec) (i j : Nat) :
    histo (l1 ++ l2) i j = histo l1 i j + histo l2 i j := by
  simp [histo, List.filter_append]

lemma count_filter_range (p : Nat → Bool) (i : Nat) :
    ∀ n : Nat, ((List.range n).filter (fun x => decide (x = i) && p x)).length
      = if i < n ∧ p i = true then 1 else 0 := by
  intro n
  induction n with
  | zero => simp
  | succ n ih =>
      rw [List.range_succ, List.filter_append, List.length_append, ih]
      rcases Nat.lt_trichotomy i n with h | h | h
      · have h1 : i < n + 1 := by omega
        have h2 : ¬(n = i) := by omega
        simp [h, h1, h2]
      · subst h
        have h1 : ¬(i < i) := by omega
        have h2 : i < i + 1 := by omega
        by_cases hp : p i = true
        · simp [h1, h2, hp]
        · simp [h1, h2, hp]
      · have h1 : ¬(i < n) := by omega
        have h2 : ¬(i < n + 1) := by omega
        have h3 : ¬(n = i) := by omega
        simp [h1, h2, h3]

/-- Each crossing increments `n_trans[i][fbin]` exactly once per record
emitted with those indices. -/
lemma crossingStep_count (n : Nat) (fp : Bool) (blk : Nat) (c : Crossing)
    (ar : Arrays) (nt : Nat → Nat → Nat) (i j : Nat) :
    (crossingStep n fp blk c ar nt).2.1 i j
      = nt i j + histo (crossingStep n fp blk c ar nt).2.2 i j := by
  show (if i < n ∧ elig (step1 ar c) c.fbin i = true ∧ j = c.fbin then nt i j + 1 else nt i j)
      = nt i j + histo (crossingRecs n fp blk c (step1 ar c)) i j
  unfold histo crossingRecs
  rw [List.filter_map, List.length_map]
  by_cases hj : j = c.fbin
  · subst hj
    have hcomp :
        ((fun r : Rec => decide (r.initial_bin = i) && decide (r.final_bin = c.fbin)) ∘
          (fun x => ({ block := blk, timepoint := c.t, initial_bin := x, final_bin := c.fbin,
                       initial_weight := (step1 ar c).weight_last_exit x,
                       final_weight := c.w,
                       initial_bin_pop := (step1 ar c).bin_pops_last_exit x,
                       duration := c.t + 1 - (step1 ar c).last_exit x,
                       fpt := if fp then
                                (if (step1 ar c).last_completion x c.fbin = 0 then 0
                                 else c.t - (step1 ar c).last_completion x c.fbin)
                              else 0 } : Rec)))
          = fun x => decide (x = i) := by
      funext x
      simp
    rw [hcomp, List.filter_filter, count_filter_range]
    by_cases hcond : i < n ∧ elig (step1 ar c) c.fbin i = true
    · simp [hcond.1, hcond.2]
    · have hneg : ¬(i < n ∧ elig (step1 ar c) c.fbin i = true ∧ c.fbin = c.fbin) := by tauto
      rw [if_neg hneg, if_neg hcond]
      omega
  · have hcomp :
        ((fun r : Rec => decide (r.initial_bin = i) && decide (r.final_bin = j)) ∘
          (fun x => ({ block := blk, timepoint := c.t, initial_bin := x, final_bin := c.fbin,
                       initial_weight := (step1 ar c).weight_last_exit x,
                       final_weight := c.w,
                       initial_bin_pop := (step1 ar c).bin_pops_last_exit x,
                       duration := c.t + 1 - (step1 ar c).last_exit x,
                       fpt := if fp then
                                (if (step1 ar c).last_completion x c.fbin = 0 then 0
                                 else c.t - (step1 ar c).last_completion x c.fbin)
                              else 0 } : Rec)))
          = fun _ => false := by
      funext x
      have : ¬(c.fbin = j) := fun hh => hj hh.symm
      simp [this]
    rw [hcomp]
    have : ¬(i < n ∧ elig (step1 ar c) c.fbin i = true ∧ j = c.fbin) := by tauto
    simp [this]

/-- Over any crossing list, the count matrix grows by exactly the histogram
of the emitted records. -/
lemma emitSpec_count (n : Nat) (fp : Bool) (blk : Nat) (cs : List Crossing) :
    ∀ (ar : Arrays) (nt : Nat → Nat → Nat) (i j : Nat),
      (emitSpec n fp blk cs ar nt).2.1 i j
        = nt i j + histo (emitSpec n fp blk cs ar nt).2.2 i j := by
  induction cs with
  | nil => intro ar nt i j; simp [emitSpec, histo]
  | cons c cs ih =>
      intro ar nt i j
      have h1 := crossingStep_count n fp blk c ar nt i j
      have h2 := ih (crossingStep n fp blk c ar nt).1 (crossingStep n fp blk c ar nt).2.1 i j
      show (emitSpec n fp blk cs (crossingStep n fp blk c ar nt).1
              (crossingStep n fp blk c ar nt).2.1).2.1 i j
          = nt i j + histo ((crossingStep n fp blk c ar nt).2.2
              ++ (emitSpec n fp blk cs (crossingStep n fp blk c ar nt).1
                    (crossingStep n fp blk c ar nt).2.1).2.2) i j
      rw [histo_append, h2, h1]
      omega

end Transacc

namespace Transacc

@[simp] lemma histo_nil (i j : Nat) : histo [] i j = 0 := by simp [histo]

/-- On a valid cursor and non-empty `bin_pops`, `continue_accumulation`
reaches `_accumulate_transitions` on the spliced sample list. -/
lemma continueAccumulation_eq (assignments : List Nat) (weights : List Rat)
    (bin_pops : List (Nat → Rat)) (blk : Nat) (a : Accum) (lb : Nat) (lbp : Rat)
    (hlb : a.last_bin = some lb) (hlbp : a.last_bin_pop = some lbp)
    (hne : bin_pops ≠ []) :
    continueAccumulation assignments weights bin_pops blk a
      = accumulateTransitions blk
          (mkSamples (List.range' a.timepoint (assignments.length + 1))
            (lb :: assignments) ((0 : Rat) :: weights)
            ((fun i => if i = lb then lbp else 0) :: bin_pops))
          a := by
  unfold continueAccumulation
  rw [hlb]
  cases bin_pops with
  | nil => exact absurd rfl hne
  | cons p0 ps => rw [hlbp]

lemma accumulateTransitions_count (blk : Nat) (samples : List Sample) (a : Accum)
    (pr : Accum × List Rec) (h : accumulateTransitions blk samples a = .ok pr) (i j : Nat) :
    pr.1.n_trans i j = a.n_trans i j + histo pr.2 i j := by
  unfold accumulateTransitions at h
  cases hg : samples.getLast? with
  | none => rw [hg] at h; exact absurd h (by simp)
  | some sl =>
      rw [hg] at h
      cases h
      have hl := accumulateLoop_spec blk (crossings samples) a []
      show (accumulateLoop blk (crossings samples) a []).1.n_trans i j
          = a.n_trans i j + histo (accumulateLoop blk (crossings samples) a []).2 i j
      rw [hl.2.1, hl.2.2.1, List.nil_append,
        emitSpec_count a.n_bins a.calc_fpts blk (crossings samples) a.arrs a.n_trans i j]

lemma runOp_count (a : Accum) (op : Op) (pr : Accum × List Rec)
    (h : runOp a op = .ok pr) (i j : Nat) :
    pr.1.n_trans i j = a.n_trans i j + histo pr.2 i j := by
  cases op with
  | start assignments weights bin_pops blk =>
      have hc := accumulateTransitions_count blk
        (mkSamples (List.range assignments.length) assignments weights bin_pops)
        (clearStateA a) pr h i j
      exact hc
  | cont assignments weights bin_pops blk =>
      unfold runOp continueAccumulation at h
      cases hlb : a.last_bin with
      | none => rw [hlb] at h; exact absurd h (by simp)
      | some lb =>
          rw [hlb] at h
          dsimp only at h
          cases bin_pops with
          | nil => exact absurd h (by simp)
          | cons p0 ps =>
              cases hlbp : a.last_bin_pop with
              | none => rw [hlbp] at h; exact absurd h (by simp)
              | some lbp =>
                  rw [hlbp] at h
                  exact accumulateTransitions_count blk _ a pr h i j
  | clearState => cases h; simp [clearStateA]
  | getState => cases h; simp
  | setState ar tp lb lbp => cases h; simp

lemma runOps_count (ops : List Op) : ∀ (a : Accum) (pr : Accum × List Rec),
    runOps a ops = .ok pr → ∀ i j : Nat,
      pr.1.n_trans i j = a.n_trans i j + histo pr.2 i j := by
  induction ops with
  | nil => intro a pr h i j; cases h; simp
  | cons op ops ih =>
      intro a pr h i j
      unfold runOps at h
      cases h1 : runOp a op with
      | error e => rw [h1] at h; exact absurd h (by simp)
      | ok p =>
          rw [h1] at h
          dsimp only at h
          cases h2 : runOps p.1 ops with
          | error e => rw [h2] at h; exact absurd h (by simp)
          | ok q =>
              rw [h2] at h
              dsimp only at h
              cases h
              have e1 := runOp_count a op p h1 i j
              have e2 := ih p.1 q h2 i j
              show q.1.n_trans i j = a.n_trans i j + histo (p.2 ++ q.2) i j
              rw [histo_append]
              omega

end Transacc

namespace Transacc

lemma chain_lt_range' : ∀ (n s : Nat), List.Chain' (· < ·) (List.range' s n) := by
  intro n
  induction n with
  | zero => intro s; simp
  | succ n ih =>
      intro s
      rw [List.range'_succ s n 1]
      refine List.chain'_cons'.mpr ⟨?_, ih (s + 1)⟩
      intro y hy
      cases n with
      | zero => simp at hy
      | succ m =>
          rw [List.range'_succ (s + 1) m 1] at hy
          simp at hy
          omega

/-- `mkSamples` preserves strictly increasing timepoints, and its head sample
carries the head timepoint. -/
lemma mkSamples_chain : ∀ (ts bs : List Nat) (ws : List Rat) (ps : List (Nat → Rat)),
    List.Chain' (· < ·) ts →
    List.Chain' (fun x y : Sample => x.t < y.t) (mkSamples ts bs ws ps) ∧
    (∀ s0, (mkSamples ts bs ws ps).head? = some s0 → ts.head? = some s0.t) := by
  intro ts
  induction ts with
  | nil => intro bs ws ps _; simp [mkSamples]
  | cons t ts ih =>
      intro bs ws ps hch
      cases bs with
      | nil => simp [mkSamples]
      | cons b bs =>
          cases ws with
          | nil => simp [mkSamples]
          | cons w ws =>
              cases ps with
              | nil => simp [mkSamples]
              | cons p ps =>
                  have hch' : List.Chain' (· < ·) ts := (List.chain'_cons'.mp hch).2
                  have hrel := (List.chain'_cons'.mp hch).1
                  obtain ⟨ihc, ihh⟩ := ih bs ws ps hch'
                  constructor
                  · show List.Chain' _ (⟨t, b, w, p⟩ :: mkSamples ts bs ws ps)
                    refine List.chain'_cons'.mpr ⟨?_, ihc⟩
                    intro y hy
                    have hts := ihh y (by
                      cases hm : mkSamples ts bs ws ps with
                      | nil => simp [hm] at hy
                      | cons z zs => simp_all)
                    show (⟨t, b, w, p⟩ : Sample).t < y.t
                    exact hrel y.t (by
                      cases ts with
                      | nil => simp [mkSamples] at hts
                      | cons u us => simp_all)
                  · intro s0 h0
                    have hs0 : Sample.mk t b w p = s0 := by
                      simpa [mkSamples] using h0
                    rw [← hs0]
                    rfl

lemma chain_lt_range (n : Nat) : List.Chain' (· < ·) (List.range n) := by
  rw [List.range_eq_range' n]
  exact chain_lt_range' n 0

/-- Records emitted for one crossing all have duration at least 1, provided
every `last_exit` entry is at most the crossing time; the bound is preserved. -/
lemma crossingStep_dur (n : Nat) (fp : Bool) (blk : Nat) (c : Crossing)
    (ar : Arrays) (nt : Nat → Nat → Nat) (h : ∀ i, ar.last_exit i ≤ c.t) :
    (∀ r ∈ (crossingStep n fp blk c ar nt).2.2, 1 ≤ r.duration) ∧
    (∀ i, (crossingStep n fp blk c ar nt).1.last_exit i ≤ c.t) := by
  have hstep : ∀ i, (step1 ar c).last_exit i ≤ c.t := by
    intro i
    show (if i = c.ibin then c.t else ar.last_exit i) ≤ c.t
    split
    · exact Nat.le_refl _
    · exact h i
  constructor
  · intro r hr
    have hr' : r ∈ crossingRecs n fp blk c (step1 ar c) := hr
    unfold crossingRecs at hr'
    obtain ⟨x, _, hx⟩ := List.mem_map.mp hr'
    have hd : r.duration = c.t + 1 - (step1 ar c).last_exit x := by rw [← hx]
    have := hstep x
    omega
  · intro i
    exact hstep i

/-- Over the crossings of a sample chunk with strictly increasing timepoints,
starting from arrays whose `last_exit` entries are bounded by the first
sample's timepoint, every emitted record has duration at least 1, and the
final `last_exit` entries are bounded by the last sample's timepoint. -/
lemma emitSpec_dur (n : Nat) (fp : Bool) (blk : Nat) :
    ∀ (rest : List Sample) (s0 : Sample) (ar : Arrays) (nt : Nat → Nat → Nat),
      List.Chain' (fun x y : Sample => x.t < y.t) (s0 :: rest) →
      (∀ i, ar.last_exit i ≤ s0.t) →
      (∀ r ∈ (emitSpec n fp blk (crossings (s0 :: rest)) ar nt).2.2, 1 ≤ r.duration) ∧
      (∀ sl, (s0 :: rest).getLast? = some sl →
        ∀ i, (emitSpec n fp blk (crossings (s0 :: rest)) ar nt).1.last_exit i ≤ sl.t) := by
  intro rest
  induction rest with
  | nil =>
      intro s0 ar nt _ hle
      constructor
      · intro r hr
        simp [crossings, emitSpec] at hr
      · intro sl hsl i
        have hss : s0 = sl := by simpa using hsl
        subst hss
        simpa [crossings, emitSpec] using hle i
  | cons s1 rest ih =>
      intro s0 ar nt hch hle
      have hch' : List.Chain' (fun x y : Sample => x.t < y.t) (s1 :: rest) :=
        (List.chain'_cons'.mp hch).2
      have h01 : s0.t < s1.t := (List.chain'_cons'.mp hch).1 s1 (by simp)
      have hglast : (s0 :: s1 :: rest).getLast? = (s1 :: rest).getLast? := by
        simp [List.getLast?_cons_cons]
      by_cases hbin : s0.bin ≠ s1.bin
      · have hcr : crossings (s0 :: s1 :: rest)
            = ⟨s1.t, s1.w, s0.bin, s1.bin, s0.pops⟩ :: crossings (s1 :: rest) := by
          simp [crossings, hbin]
        set c : Crossing := ⟨s1.t, s1.w, s0.bin, s1.bin, s0.pops⟩ with hc
        have hle1 : ∀ i, ar.last_exit i ≤ c.t := fun i => Nat.le_of_lt
          (Nat.lt_of_le_of_lt (hle i) h01)
        have hstep := crossingStep_dur n fp blk c ar nt hle1
        have hle2 : ∀ i, (crossingStep n fp blk c ar nt).1.last_exit i ≤ s1.t := hstep.2
        obtain ⟨ihd, ihl⟩ := ih s1 (crossingStep n fp blk c ar nt).1
          (crossingStep n fp blk c ar nt).2.1 hch' hle2
        rw [hcr]
        constructor
        · intro r hr
          show 1 ≤ r.duration
          have : r ∈ (crossingStep n fp blk c ar nt).2.2
              ∨ r ∈ (emitSpec n fp blk (crossings (s1 :: rest))
                      (crossingStep n fp blk c ar nt).1
                      (crossingStep n fp blk c ar nt).2.1).2.2 := by
            have hr' := hr
            simp only [emitSpec] at hr'
            exact List.mem_append.mp hr'
          rcases this with h | h
          · exact hstep.1 r h
          · exact ihd r h
        · intro sl hsl i
          rw [hglast] at hsl
          exact ihl sl hsl i
      · have heq : s0.bin = s1.bin := not_not.mp hbin
        have hcr : crossings (s0 :: s1 :: rest) = crossings (s1 :: rest) := by
          simp [crossings, heq]
        have hle' : ∀ i, ar.last_exit i ≤ s1.t := fun i => Nat.le_of_lt
          (Nat.lt_of_le_of_lt (hle i) h01)
        obtain ⟨ihd, ihl⟩ := ih s1 ar nt hch' hle'
        rw [hcr]
        exact ⟨ihd, fun sl hsl i => ihl sl (hglast ▸ hsl) i⟩

end Transacc

namespace Transacc

lemma accumulateTransitions_dur (blk : Nat) (samples : List Sample) (a : Accum)
    (pr : Accum × List Rec)
    (hch : List.Chain' (fun x y : Sample => x.t < y.t) samples)
    (hhead : ∀ s0, samples.head? = some s0 → ∀ i, a.arrs.last_exit i ≤ s0.t)
    (h : accumulateTransitions blk samples a = .ok pr) :
    (∀ r ∈ pr.2, 1 ≤ r.duration) ∧ (∀ i, pr.1.arrs.last_exit i ≤ pr.1.timepoint) := by
  cases samples with
  | nil => exact absurd h (by simp [accumulateTransitions])
  | cons s0 rest =>
      unfold accumulateTransitions at h
      cases hg : (s0 :: rest).getLast? with
      | none => rw [hg] at h; exact absurd h (by simp)
      | some sl =>
          rw [hg] at h
          cases h
          have hl := accumulateLoop_spec blk (crossings (s0 :: rest)) a []
          have hd := emitSpec_dur a.n_bins a.calc_fpts blk rest s0 a.arrs a.n_trans hch
            (hhead s0 rfl)
          constructor
          · intro r hr
            apply hd.1 r
            have hr' : r ∈ (accumulateLoop blk (crossings (s0 :: rest)) a []).2 := hr
            rw [hl.2.2.1, List.nil_append] at hr'
            exact hr'
          · intro i
            show (accumulateLoop blk (crossings (s0 :: rest)) a []).1.arrs.last_exit i ≤ sl.t
            rw [hl.1]
            exact hd.2 sl hg i

lemma runOp_dur (a : Accum) (op : Op) (pr : Accum × List Rec)
    (hinv : ∀ i, a.arrs.last_exit i ≤ a.timepoint)
    (hset : ∀ ar tp lb lbp, op = Op.setState ar tp lb lbp → ∀ i, ar.last_exit i ≤ tp)
    (h : runOp a op = .ok pr) :
    (∀ r ∈ pr.2, 1 ≤ r.duration) ∧ (∀ i, pr.1.arrs.last_exit i ≤ pr.1.timepoint) := by
  cases op with
  | start assignments weights bin_pops blk =>
      refine accumulateTransitions_dur blk _ (clearStateA a) pr ?_ ?_ h
      · exact (mkSamples_chain (List.range assignments.length) assignments weights bin_pops
          (chain_lt_range assignments.length)).1
      · intro s0 _ i
        exact Nat.zero_le _
  | cont assignments weights bin_pops blk =>
      unfold runOp continueAccumulation at h
      cases hlb : a.last_bin with
      | none => rw [hlb] at h; exact absurd h (by simp)
      | some lb =>
          rw [hlb] at h
          dsimp only at h
          cases bin_pops with
          | nil => exact absurd h (by simp)
          | cons p0 ps =>
              cases hlbp : a.last_bin_pop with
              | none => rw [hlbp] at h; exact absurd h (by simp)
              | some lbp =>
                  rw [hlbp] at h
                  refine accumulateTransitions_dur blk _ a pr ?_ ?_ h
                  · exact (mkSamples_chain (List.range' a.timepoint (assignments.length + 1))
                      _ _ _ (chain_lt_range' (assignments.length + 1) a.timepoint)).1
                  · intro s0 hh i
                    have ht := (mkSamples_chain
                      (List.range' a.timepoint (assignments.length + 1)) _ _ _
                      (chain_lt_range' (assignments.length + 1) a.timepoint)).2 s0 hh
                    rw [List.range'_succ a.timepoint assignments.length 1] at ht
                    have hts : a.timepoint = s0.t := by simpa using ht
                    rw [← hts]
                    exact hinv i
  | clearState =>
      cases h
      refine ⟨by intro r hr; simp at hr, ?_⟩
      intro i
      exact Nat.zero_le _
  | getState =>
      cases h
      exact ⟨by intro r hr; simp at hr, hinv⟩
  | setState ar tp lb lbp =>
      cases h
      refine ⟨by intro r hr; simp at hr, ?_⟩
      intro i
      exact hset ar tp lb lbp rfl i

lemma runOps_dur (ops : List Op) : ∀ (a : Accum) (pr : Accum × List Rec),
    (∀ i, a.arrs.last_exit i ≤ a.timepoint) →
    (∀ ar tp lb lbp, Op.setState ar tp lb lbp ∈ ops → ∀ i, ar.last_exit i ≤ tp) →
    runOps a ops = .ok pr →
    (∀ r ∈ pr.2, 1 ≤ r.duration) ∧ (∀ i, pr.1.arrs.last_exit i ≤ pr.1.timepoint) := by
  induction ops with
  | nil =>
      intro a pr hinv _ h
      cases h
      exact ⟨by intro r hr; simp at hr, hinv⟩
  | cons op ops ih =>
      intro a pr hinv hset h
      unfold runOps at h
      cases h1 : runOp a op with
      | error e => rw [h1] at h; exact absurd h (by simp)
      | ok p =>
          rw [h1] at h
          dsimp only at h
          cases h2 : runOps p.1 ops with
          | error e => rw [h2] at h; exact absurd h (by simp)
          | ok q =>
              rw [h2] at h
              dsimp only at h
              cases h
              have d1 := runOp_dur a op p hinv
                (by intro ar tp lb lbp he; exact hset ar tp lb lbp (by rw [← he]; exact List.mem_cons_self op ops)) h1
              have d2 := ih p.1 q d1.2
                (by intro ar tp lb lbp hm; exact hset ar tp lb lbp (List.mem_cons_of_mem op hm)) h2
              constructor
              · intro r hr
                rcases List.mem_append.mp hr with hq | hq
                · exact d1.1 r hq
                · exact d2.1 r hq
              · exact d2.2

end Transacc

namespace Transacc

lemma crossingStep_arrs_eq_specAdvance (n : Nat) (fp : Bool) (blk : Nat) (c : Crossing)
    (ar : Arrays) (nt : Nat → Nat → Nat) :
    (crossingStep n fp blk c ar nt).1 = specAdvance n (step1 ar c) c.fbin c.t := by
  have hmem : ∀ i, (i ∈ completedSet n (step1 ar c) c.fbin)
      ↔ (i < n ∧ elig (step1 ar c) c.fbin i = true) := by
    intro i
    unfold completedSet
    rw [List.mem_filter, List.mem_range]
    exact Iff.rfl
  show ({ step1 ar c with
          last_completion := fun i j =>
            if i < n ∧ elig (step1 ar c) c.fbin i = true ∧ j = c.fbin then c.t
            else (step1 ar c).last_completion i j } : Arrays)
      = specAdvance n (step1 ar c) c.fbin c.t
  unfold specAdvance
  dsimp only
  congr 1
  funext i j
  by_cases h1 : (i < n ∧ elig (step1 ar c) c.fbin i = true ∧ j = c.fbin)
  · rw [if_pos h1, if_pos ⟨(hmem i).mpr ⟨h1.1, h1.2.1⟩, h1.2.2⟩]
  · rw [if_neg h1, if_neg (fun hc => h1 ⟨((hmem i).mp hc.1).1, ((hmem i).mp hc.1).2, hc.2⟩)]

lemma crossingRecs_triples (n : Nat) (fp : Bool) (blk : Nat) (c : Crossing) (ar1 : Arrays) :
    (crossingRecs n fp blk c ar1).map recTriple
      = (completedSet n ar1 c.fbin).map (fun i => (c.t, i, c.fbin)) := by
  simp only [crossingRecs, completedSet, recTriple, elig, List.map_map]
  rfl

/-- The emitted records of the clean recursion project, per crossing, to
exactly one `(t, i, fbin)` triple per completed bin as given by the
(corrected) specification-level recursion. -/
lemma emitSpec_triples (n : Nat) (fp : Bool) (blk : Nat) (cs : List Crossing) :
    ∀ (ar : Arrays) (nt : Nat → Nat → Nat),
      (emitSpec n fp blk cs ar nt).2.2.map recTriple = specTriples n cs ar := by
  induction cs with
  | nil => intro ar nt; simp [emitSpec, specTriples]
  | cons c cs ih =>
      intro ar nt
      show ((crossingStep n fp blk c ar nt).2.2
              ++ (emitSpec n fp blk cs (crossingStep n fp blk c ar nt).1
                    (crossingStep n fp blk c ar nt).2.1).2.2).map recTriple
          = (completedSet n (step1 ar c) c.fbin).map (fun i => (c.t, i, c.fbin))
              ++ specTriples n cs (specAdvance n (step1 ar c) c.fbin c.t)
      rw [List.map_append, ih, crossingStep_arrs_eq_specAdvance]
      congr 1
      exact crossingRecs_triples n fp blk c (step1 ar c)

lemma accumulateTransitions_emitted (blk : Nat) (samples : List Sample) (a : Accum)
    (pr : Accum × List Rec) (h : accumulateTransitions blk samples a = .ok pr) :
    pr.2 = (emitSpec a.n_bins a.calc_fpts blk (crossings samples) a.arrs a.n_trans).2.2 := by
  unfold accumulateTransitions at h
  cases hg : samples.getLast? with
  | none => rw [hg] at h; exact absurd h (by simp)
  | some sl =>
      rw [hg] at h
      cases h
      have hl := accumulateLoop_spec blk (crossings samples) a []
      show (accumulateLoop blk (crossings samples) a []).2 = _
      rw [hl.2.2.1, List.nil_append]

end Transacc

namespace Transacc

lemma mkSamples_length : ∀ (ts bs : List Nat) (ws : List Rat) (ps : List (Nat → Rat)),
    bs.length = ts.length → ws.length = ts.length → ps.length = ts.length →
    (mkSamples ts bs ws ps).length = ts.length
  | [], bs, ws, ps, _, _, _ => by
      cases bs <;> cases ws <;> cases ps <;> rfl
  | t :: ts, bs, ws, ps, h1, h2, h3 => by
      cases bs with
      | nil => simp at h1
      | cons b bs =>
          cases ws with
          | nil => simp at h2
          | cons w ws =>
              cases ps with
              | nil => simp at h3
              | cons p ps =>
                  simp only [mkSamples, List.length_cons]
                  rw [mkSamples_length ts bs ws ps (by simpa using h1) (by simpa using h2)
                    (by simpa using h3)]

lemma mkSamples_append : ∀ (ts1 bs1 : List Nat) (ws1 : List Rat) (ps1 : List (Nat → Rat))
    (ts2 bs2 : List Nat) (ws2 : List Rat) (ps2 : List (Nat → Rat)),
    bs1.length = ts1.length → ws1.length = ts1.length → ps1.length = ts1.length →
    mkSamples (ts1 ++ ts2) (bs1 ++ bs2) (ws1 ++ ws2) (ps1 ++ ps2)
      = mkSamples ts1 bs1 ws1 ps1 ++ mkSamples ts2 bs2 ws2 ps2
  | [], bs1, ws1, ps1, ts2, bs2, ws2, ps2, h1, h2, h3 => by
      have hb : bs1 = [] := List.length_eq_zero.mp (by simpa using h1)
      have hw : ws1 = [] := List.length_eq_zero.mp (by simpa using h2)
      have hp : ps1 = [] := List.length_eq_zero.mp (by simpa using h3)
      subst hb hw hp
      simp [mkSamples]
  | t :: ts1, bs1, ws1, ps1, ts2, bs2, ws2, ps2, h1, h2, h3 => by
      cases bs1 with
      | nil => simp at h1
      | cons b bs1 =>
          cases ws1 with
          | nil => simp at h2
          | cons w ws1 =>
              cases ps1 with
              | nil => simp at h3
              | cons p ps1 =>
                  simp only [List.cons_append, mkSamples, List.append_eq]
                  rw [mkSamples_append ts1 bs1 ws1 ps1 ts2 bs2 ws2 ps2 (by simpa using h1)
                    (by simpa using h2) (by simpa using h3)]

lemma mkSamples_getLast_t : ∀ (ts bs : List Nat) (ws : List Rat) (ps : List (Nat → Rat))
    (sl : Sample),
    bs.length = ts.length → ws.length = ts.length → ps.length = ts.length →
    (mkSamples ts bs ws ps).getLast? = some sl → ts.getLast? = some sl.t
  | [], bs, ws, ps, sl, _, _, _, h => by
      cases bs <;> cases ws <;> cases ps <;> simp [mkSamples] at h
  | t :: ts, bs, ws, ps, sl, h1, h2, h3, h => by
      cases bs with
      | nil => simp at h1
      | cons b bs =>
          cases ws with
          | nil => simp at h2
          | cons w ws =>
              cases ps with
              | nil => simp at h3
              | cons p ps =>
                  cases hts : ts with
                  | nil =>
                      subst hts
                      have hb : bs = [] := List.length_eq_zero.mp (by simpa using h1)
                      have hw : ws = [] := List.length_eq_zero.mp (by simpa using h2)
                      have hp : ps = [] := List.length_eq_zero.mp (by simpa using h3)
                      subst hb hw hp
                      have : Sample.mk t b w p = sl := by
                        simpa [mkSamples] using h
                      rw [← this]
                      rfl
                  | cons t2 ts2 =>
                      subst hts
                      cases hbs : bs with
                      | nil => rw [hbs] at h1; simp at h1
                      | cons b2 bs2 =>
                          cases hws : ws with
                          | nil => rw [hws] at h2; simp at h2
                          | cons w2 ws2 =>
                              cases hps : ps with
                              | nil => rw [hps] at h3; simp at h3
                              | cons p2 ps2 =>
                                  subst hbs hws hps
                                  have hrec := mkSamples_getLast_t (t2 :: ts2) (b2 :: bs2)
                                    (w2 :: ws2) (p2 :: ps2) sl (by simpa using h1)
                                    (by simpa using h2) (by simpa using h3) (by
                                      rw [← h]
                                      show _ = (mkSamples (t :: t2 :: ts2) (b :: b2 :: bs2)
                                        (w :: w2 :: ws2) (p :: p2 :: ps2)).getLast?
                                      simp only [mkSamples]
                                      rw [List.getLast?_cons_cons])
                                  rw [← hrec]
                                  rw [List.getLast?_cons_cons]

lemma range'_getLast? : ∀ (n s : Nat), 0 < n → (List.range' s n).getLast? = some (s + n - 1)
  | 0, _, h => absurd h (by omega)
  | 1, s, _ => by simp
  | n + 2, s, _ => by
      rw [List.range'_succ s (n + 1) 1]
      rw [List.range'_succ (s + 1) n 1]
      rw [List.getLast?_cons_cons]
      rw [← List.range'_succ (s + 1) n 1]
      rw [range'_getLast? (n + 1) (s + 1) (by omega)]
      congr 1
      omega

lemma crossings_append : ∀ (S1 : List Sample) (sl : Sample) (S2 : List Sample),
    S1.getLast? = some sl →
    crossings (S1 ++ S2) = crossings S1 ++ crossings (sl :: S2)
  | [], sl, S2, h => by simp at h
  | [s0], sl, S2, h => by
      have hs : s0 = sl := by simpa using h
      subst hs
      simp [crossings]
  | s0 :: s1 :: S1, sl, S2, h => by
      have h' : (s1 :: S1).getLast? = some sl := by
        rw [← h, List.getLast?_cons_cons]
      show crossings (s0 :: s1 :: (S1 ++ S2)) = _
      have hl : crossings (s0 :: s1 :: (S1 ++ S2))
          = (if s0.bin ≠ s1.bin then [⟨s1.t, s1.w, s0.bin, s1.bin, s0.pops⟩] else [])
              ++ crossings (s1 :: (S1 ++ S2)) := rfl
      have hr : crossings (s0 :: s1 :: S1)
          = (if s0.bin ≠ s1.bin then [⟨s1.t, s1.w, s0.bin, s1.bin, s0.pops⟩] else [])
              ++ crossings (s1 :: S1) := rfl
      rw [hl, hr]
      have : crossings (s1 :: (S1 ++ S2)) = crossings ((s1 :: S1) ++ S2) := rfl
      rw [this, crossings_append (s1 :: S1) sl S2 h', List.append_assoc]

/-- Two crossings that agree on time, weight, bins, and on the departure-side
population of the initial bin (the only entry the algorithm reads). -/
def CrEquiv (c c' : Crossing) : Prop :=
  c.t = c'.t ∧ c.w = c'.w ∧ c.ibin = c'.ibin ∧ c.fbin = c'.fbin ∧
    c.ibinpops c.ibin = c'.ibinpops c'.ibin

lemma crossingStep_congr (n : Nat) (fp : Bool) (blk : Nat) {c c' : Crossing}
    (h : CrEquiv c c') (ar : Arrays) (nt : Nat → Nat → Nat) :
    crossingStep n fp blk c ar nt = crossingStep n fp blk c' ar nt := by
  obtain ⟨ht, hw, hi, hf, hp⟩ := h
  cases c with
  | mk t w ib fb p =>
      cases c' with
      | mk t' w' ib' fb' p' =>
          dsimp at ht hw hi hf hp
          subst ht hw hi hf
          have hstep : step1 ar ⟨t, w, ib, fb, p⟩ = step1 ar ⟨t, w, ib, fb, p'⟩ := by
            unfold step1
            dsimp
            congr 1
            funext i
            by_cases hi2 : i = ib
            · rw [if_pos hi2, if_pos hi2, hp]
            · rw [if_neg hi2, if_neg hi2]
          unfold crossingStep crossingRecs
          dsimp
          rw [hstep]

lemma emitSpec_congr (n : Nat) (fp : Bool) (blk : Nat) :
    ∀ {cs cs' : List Crossing}, List.Forall₂ CrEquiv cs cs' →
      ∀ (ar : Arrays) (nt : Nat → Nat → Nat),
        emitSpec n fp blk cs ar nt = emitSpec n fp blk cs' ar nt := by
  intro cs cs' h
  induction h with
  | nil => intro ar nt; rfl
  | cons hc _ ih =>
      intro ar nt
      simp only [emitSpec]
      rw [crossingStep_congr n fp blk hc ar nt, ih]

lemma crossings_cons_congr (s s' : Sample) (hb : s.bin = s'.bin) (_ : s.t = s'.t)
    (hp : s.pops s.bin = s'.pops s'.bin) (S : List Sample) :
    List.Forall₂ CrEquiv (crossings (s :: S)) (crossings (s' :: S)) := by
  cases S with
  | nil => exact List.Forall₂.nil
  | cons s1 S =>
      have hrest : List.Forall₂ CrEquiv (crossings (s1 :: S)) (crossings (s1 :: S)) :=
        List.forall₂_same.mpr (fun x _ => ⟨rfl, rfl, rfl, rfl, rfl⟩)
      show List.Forall₂ CrEquiv
        ((if s.bin ≠ s1.bin then [⟨s1.t, s1.w, s.bin, s1.bin, s.pops⟩] else [])
          ++ crossings (s1 :: S))
        ((if s'.bin ≠ s1.bin then [⟨s1.t, s1.w, s'.bin, s1.bin, s'.pops⟩] else [])
          ++ crossings (s1 :: S))
      rw [hb] at hp ⊢
      by_cases hbin : s'.bin ≠ s1.bin
      · rw [if_pos hbin, if_pos hbin]
        exact List.Forall₂.cons ⟨rfl, rfl, rfl, rfl, hp⟩ hrest
      · rw [if_neg hbin, if_neg hbin]
        simpa using hrest

/-- Everything `accumulateTransitions` establishes on success. -/
lemma accumulateTransitions_ok (blk : Nat) (samples : List Sample) (a : Accum)
    (pr : Accum × List Rec) (h : accumulateTransitions blk samples a = .ok pr) :
    ∃ sl, samples.getLast? = some sl ∧
      pr.1.arrs = (emitSpec a.n_bins a.calc_fpts blk (crossings samples) a.arrs a.n_trans).1 ∧
      pr.1.n_trans = (emitSpec a.n_bins a.calc_fpts blk (crossings samples) a.arrs a.n_trans).2.1 ∧
      pr.2 = (emitSpec a.n_bins a.calc_fpts blk (crossings samples) a.arrs a.n_trans).2.2 ∧
      pr.1.n_bins = a.n_bins ∧ pr.1.calc_fpts = a.calc_fpts ∧
      pr.1.buffersize = a.buffersize ∧
      pr.1.timepoint = sl.t ∧ pr.1.last_bin = some sl.bin ∧
      pr.1.last_bin_pop = some (sl.pops sl.bin) := by
  unfold accumulateTransitions at h
  cases hg : samples.getLast? with
  | none => rw [hg] at h; exact absurd h (by simp)
  | some sl =>
      rw [hg] at h
      cases h
      have hl := accumulateLoop_spec blk (crossings samples) a []
      refine ⟨sl, rfl, ?_, ?_, ?_, ?_, ?_, ?_, rfl, rfl, rfl⟩
      · exact hl.1
      · exact hl.2.1
      · rw [hl.2.2.1, List.nil_append]
      · exact hl.2.2.2.1
      · exact hl.2.2.2.2.1
      · exact hl.2.2.2.2.2.1

end Transacc

namespace Transacc

@[simp] lemma clearStateA_n_bins (a : Accum) : (clearStateA a).n_bins = a.n_bins := rfl

@[simp] lemma clearStateA_calc_fpts (a : Accum) : (clearStateA a).calc_fpts = a.calc_fpts := rfl

@[simp] lemma clearStateA_buffersize (a : Accum) : (clearStateA a).buffersize = a.buffersize := rfl

@[simp] lemma clearStateA_arrs (a : Accum) : (clearStateA a).arrs = zeroArrays := rfl

@[simp] lemma clearStateA_n_trans (a : Accum) : (clearStateA a).n_trans = a.n_trans := rfl

/-- Claim C6: for non-empty chunks, `start_accumulation(chunk1)` followed by
`continue_accumulation(chunk2)` (chunk2 without the duplicated boundary
sample) emits the same record sequence and produces the same `n_trans` matrix
and the same final cursor as a single `start_accumulation(chunk1 ++ chunk2)`. -/
theorem c6_continuation_equivalence
    (a1 a2 : List Nat) (w1 w2 : List Rat) (p1 p2 : List (Nat → Rat)) (blk : Nat) (A : Accum)
    (prs pr1 pr2 : Accum × List Rec)
    (h1ne : a1 ≠ []) (h2ne : a2 ≠ [])
    (hw1 : w1.length = a1.length) (hp1 : p1.length = a1.length)
    (hw2 : w2.length = a2.length) (hp2 : p2.length = a2.length)
    (hs : startAccumulation (a1 ++ a2) (w1 ++ w2) (p1 ++ p2) blk A = .ok prs)
    (h1 : startAccumulation a1 w1 p1 blk A = .ok pr1)
    (h2 : continueAccumulation a2 w2 p2 blk pr1.1 = .ok pr2) :
    prs.2 = pr1.2 ++ pr2.2 ∧
    (∀ i j, prs.1.n_trans i j = pr2.1.n_trans i j) ∧
    prs.1.timepoint = pr2.1.timepoint ∧
    prs.1.last_bin = pr2.1.last_bin ∧
    prs.1.last_bin_pop = pr2.1.last_bin_pop := by
  have hn1 : 0 < a1.length := List.length_pos.mpr h1ne
  have hn2 : 0 < a2.length := List.length_pos.mpr h2ne
  unfold startAccumulation at h1 hs
  obtain ⟨sl1, hgl1, harr1, hnt1, hrec1, hnb1, hcf1, hbsz1, htp1, hlb1, hlbp1⟩ :=
    accumulateTransitions_ok blk _ (clearStateA A) pr1 h1
  simp only [clearStateA_n_bins, clearStateA_calc_fpts, clearStateA_arrs,
    clearStateA_n_trans] at harr1 hnt1 hrec1
  have hrt : (List.range a1.length).getLast? = some sl1.t :=
    mkSamples_getLast_t (List.range a1.length) a1 w1 p1 sl1 (by simp) (by simp [hw1])
      (by simp [hp1]) hgl1
  have hslt : sl1.t = a1.length - 1 := by
    rw [List.range_eq_range'] at hrt
    rw [range'_getLast? a1.length 0 hn1] at hrt
    have := Option.some.inj hrt
    omega
  have hslt1 : sl1.t + 1 = a1.length := by omega
  have hp2ne : p2 ≠ [] := by
    intro hh
    rw [hh] at hp2
    simp at hp2
    omega
  rw [continueAccumulation_eq a2 w2 p2 blk pr1.1 sl1.bin (sl1.pops sl1.bin) hlb1 hlbp1
    hp2ne] at h2
  rw [htp1] at h2
  rw [List.range'_succ sl1.t a2.length 1] at h2
  have hsc : mkSamples (sl1.t :: List.range' (sl1.t + 1) a2.length) (sl1.bin :: a2)
        ((0 : Rat) :: w2) ((fun i => if i = sl1.bin then sl1.pops sl1.bin else 0) :: p2)
      = (⟨sl1.t, sl1.bin, 0, fun i => if i = sl1.bin then sl1.pops sl1.bin else 0⟩ : Sample)
          :: mkSamples (List.range' (sl1.t + 1) a2.length) a2 w2 p2 := rfl
  rw [hsc, hslt1] at h2
  obtain ⟨sl2, hgl2, harr2, hnt2, hrec2, hnb2, hcf2, hbsz2, htp2, hlb2, hlbp2⟩ :=
    accumulateTransitions_ok blk _ pr1.1 pr2 h2
  rw [hnb1, hcf1] at harr2 hnt2 hrec2
  simp only [clearStateA_n_bins, clearStateA_calc_fpts] at harr2 hnt2 hrec2
  rw [harr1, hnt1] at harr2 hnt2 hrec2
  have hsplit : mkSamples (List.range (a1 ++ a2).length) (a1 ++ a2) (w1 ++ w2) (p1 ++ p2)
      = mkSamples (List.range a1.length) a1 w1 p1
          ++ mkSamples (List.range' a1.length a2.length) a2 w2 p2 := by
    rw [List.length_append]
    have hr : List.range (a1.length + a2.length)
        = List.range a1.length ++ List.range' a1.length a2.length := by
      rw [List.range_eq_range', List.range_eq_range', Nat.add_comm a1.length a2.length]
      have h := List.range'_append_1 0 a1.length a2.length
      rw [Nat.zero_add] at h
      exact h.symm
    rw [hr]
    exact mkSamples_append _ a1 w1 p1 _ a2 w2 p2 (by simp) (by simp [hw1]) (by simp [hp1])
  rw [hsplit] at hs
  obtain ⟨sl, hgl, harr, hnt, hrec, hnb, hcf, hbsz, htp, hlb, hlbp⟩ :=
    accumulateTransitions_ok blk _ (clearStateA A) prs hs
  simp only [clearStateA_n_bins, clearStateA_calc_fpts, clearStateA_arrs,
    clearStateA_n_trans] at harr hnt hrec
  have hcr : crossings (mkSamples (List.range a1.length) a1 w1 p1
        ++ mkSamples (List.range' a1.length a2.length) a2 w2 p2)
      = crossings (mkSamples (List.range a1.length) a1 w1 p1)
          ++ crossings (sl1 :: mkSamples (List.range' a1.length a2.length) a2 w2 p2) :=
    crossings_append _ sl1 _ hgl1
  rw [hcr] at hnt hrec
  rw [emitSpec_append A.n_bins A.calc_fpts blk] at hnt hrec
  have hpopeq : sl1.pops sl1.bin
      = ((⟨sl1.t, sl1.bin, 0, fun i => if i = sl1.bin then sl1.pops sl1.bin else 0⟩ :
          Sample)).pops (⟨sl1.t, sl1.bin, 0,
            fun i => if i = sl1.bin then sl1.pops sl1.bin else 0⟩ : Sample).bin := by
    simp
  have hcongr := crossings_cons_congr sl1
    (⟨sl1.t, sl1.bin, 0, fun i => if i = sl1.bin then sl1.pops sl1.bin else 0⟩ : Sample)
    rfl rfl hpopeq (mkSamples (List.range' a1.length a2.length) a2 w2 p2)
  rw [emitSpec_congr A.n_bins A.calc_fpts blk hcongr] at hnt hrec
  have hS2ne : mkSamples (List.range' a1.length a2.length) a2 w2 p2 ≠ [] := by
    apply List.ne_nil_of_length_pos
    rw [mkSamples_length (List.range' a1.length a2.length) a2 w2 p2 (by simp)
      (by simp [hw2]) (by simp [hp2])]
    simpa using hn2
  have hgl' : (mkSamples (List.range a1.length) a1 w1 p1
        ++ mkSamples (List.range' a1.length a2.length) a2 w2 p2).getLast?
      = (mkSamples (List.range' a1.length a2.length) a2 w2 p2).getLast? :=
    List.getLast?_append_of_ne_nil _ hS2ne
  have hgl2' : ((⟨sl1.t, sl1.bin, 0,
        fun i => if i = sl1.bin then sl1.pops sl1.bin else 0⟩ : Sample)
          :: mkSamples (List.range' a1.length a2.length) a2 w2 p2).getLast?
      = (mkSamples (List.range' a1.length a2.length) a2 w2 p2).getLast? := by
    rw [show ((⟨sl1.t, sl1.bin, 0,
        fun i => if i = sl1.bin then sl1.pops sl1.bin else 0⟩ : Sample)
          :: mkSamples (List.range' a1.length a2.length) a2 w2 p2)
        = [⟨sl1.t, sl1.bin, 0, fun i => if i = sl1.bin then sl1.pops sl1.bin else 0⟩]
            ++ mkSamples (List.range' a1.length a2.length) a2 w2 p2 from rfl]
    exact List.getLast?_append_of_ne_nil _ hS2ne
  have hsl12 : sl = sl2 := by
    have e1 : (mkSamples (List.range' a1.length a2.length) a2 w2 p2).getLast? = some sl := by
      rw [← hgl']; exact hgl
    have e2 : (mkSamples (List.range' a1.length a2.length) a2 w2 p2).getLast? = some sl2 := by
      rw [← hgl2']; exact hgl2
    exact Option.some.inj (e1.symm.trans e2)
  refine ⟨?_, ?_, ?_, ?_, ?_⟩
  · rw [hrec, hrec1, hrec2]
  · intro i j
    rw [hnt, ← hnt2]
  · rw [htp, htp2, hsl12]
  · rw [hlb, hlb2, hsl12]
  · rw [hlbp, hlbp2, hsl12]

end Transacc

namespace Transacc

lemma halloc_preserve (h : Heap) (ar : Arrays) (a : Nat) (ha : a < h.next) :
    (halloc h ar).2.mem a = h.mem a ∧ (halloc h ar).1 ≠ a ∧ a < (halloc h ar).2.next := by
  unfold halloc
  dsimp
  refine ⟨?_, by omega, by omega⟩
  rw [if_neg (by omega)]

lemma mAccumulate_preserve (blk : Nat) (samples : List Sample) (m : MAcc) (h : Heap)
    (a : Nat) (ha : a < h.next) (hm : m.ref ≠ a) :
    (mAccumulate blk samples m h).2.mem a = h.mem a ∧
    (mAccumulate blk samples m h).1.ref ≠ a ∧
    a < (mAccumulate blk samples m h).2.next := by
  unfold mAccumulate
  cases hg : samples.getLast? with
  | none => exact ⟨rfl, hm, ha⟩
  | some sl =>
      dsimp only
      refine ⟨?_, hm, ha⟩
      rw [if_neg (fun hh => hm hh.symm)]

lemma mClearState_preserve (m : MAcc) (h : Heap) (a : Nat) (ha : a < h.next) :
    (mClearState m h).2.mem a = h.mem a ∧ (mClearState m h).1.ref ≠ a ∧
    a < (mClearState m h).2.next := by
  unfold mClearState
  dsimp only
  have hp := halloc_preserve h zeroArrays a ha
  exact ⟨hp.1, hp.2.1, hp.2.2⟩

lemma mStart_preserve (assignments : List Nat) (weights : List Rat)
    (bin_pops : List (Nat → Rat)) (blk : Nat) (m : MAcc) (h : Heap) (a : Nat)
    (ha : a < h.next) :
    (mStart assignments weights bin_pops blk m h).2.mem a = h.mem a ∧
    (mStart assignments weights bin_pops blk m h).1.ref ≠ a ∧
    a < (mStart assignments weights bin_pops blk m h).2.next := by
  unfold mStart
  dsimp only
  have hc := mClearState_preserve m h a ha
  have hacc := mAccumulate_preserve blk
    (mkSamples (List.range assignments.length) assignments weights bin_pops)
    (mClearState m h).1 (mClearState m h).2 a hc.2.2 hc.2.1
  exact ⟨hacc.1.trans hc.1, hacc.2.1, hacc.2.2⟩

lemma mCont_preserve (assignments : List Nat) (weights : List Rat)
    (bin_pops : List (Nat → Rat)) (blk : Nat) (m : MAcc) (h : Heap) (a : Nat)
    (ha : a < h.next) (hm : m.ref ≠ a) :
    (mCont assignments weights bin_pops blk m h).2.mem a = h.mem a ∧
    (mCont assignments weights bin_pops blk m h).1.ref ≠ a ∧
    a < (mCont assignments weights bin_pops blk m h).2.next := by
  unfold mCont
  cases hlb : m.last_bin with
  | none => exact ⟨rfl, hm, ha⟩
  | some lb =>
      cases bin_pops with
      | nil => exact ⟨rfl, hm, ha⟩
      | cons p0 ps =>
          cases hlbp : m.last_bin_pop with
          | none => exact ⟨rfl, hm, ha⟩
          | some lbp =>
              exact mAccumulate_preserve blk
                (mkSamples (List.range' m.timepoint (assignments.length + 1))
                  (lb :: assignments) ((0 : Rat) :: weights)
                  ((fun i => if i = lb then lbp else 0) :: p0 :: ps)) m h a ha hm

lemma runMOp_preserve (op : MOp) (m : MAcc) (h : Heap) (a : Nat)
    (ha : a < h.next) (hm : m.ref ≠ a)
    (hop : ∀ s, op = MOp.setState s → s.ref ≠ a) :
    (runMOp m h op).2.mem a = h.mem a ∧ (runMOp m h op).1.ref ≠ a ∧
    a < (runMOp m h op).2.next := by
  cases op with
  | start assignments weights bin_pops blk =>
      exact mStart_preserve assignments weights bin_pops blk m h a ha
  | cont assignments weights bin_pops blk =>
      exact mCont_preserve assignments weights bin_pops blk m h a ha hm
  | clearState => exact mClearState_preserve m h a ha
  | getState =>
      have hp := halloc_preserve h (h.mem m.ref) a ha
      exact ⟨hp.1, hm, hp.2.2⟩
  | setState s =>
      exact ⟨rfl, hop s rfl, ha⟩

lemma runMOps_preserve (mops : List MOp) : ∀ (m : MAcc) (h : Heap) (a : Nat),
    a < h.next → m.ref ≠ a →
    (∀ s, MOp.setState s ∈ mops → s.ref ≠ a) →
    (runMOps mops m h).2.mem a = h.mem a ∧ (runMOps mops m h).1.ref ≠ a ∧
    a < (runMOps mops m h).2.next := by
  induction mops with
  | nil => intro m h a ha hm _; exact ⟨rfl, hm, ha⟩
  | cons op mops ih =>
      intro m h a ha hm hnos
      have h1 := runMOp_preserve op m h a ha hm
        (fun s he => hnos s (by rw [← he]; exact List.mem_cons_self op mops))
      have h2 := ih (runMOp m h op).1 (runMOp m h op).2 a h1.2.2 h1.2.1
        (fun s hmem => hnos s (List.mem_cons_of_mem op hmem))
      exact ⟨h2.1.trans h1.1, h2.2.1, h2.2.2⟩

end Transacc

namespace Transacc

/-! Concrete scenario definitions used by the claim theorems, their witnesses
and counterexamples. -/

/-- The assignments of the concrete scenario in the specification. -/
def scenAssign : List Nat := [0, 0, 1, 1, 2, 2, 1, 0]

def scenWeights : List Rat := List.replicate 8 1

def scenPops : List (Nat → Rat) := scenAssign.map unitPops

/-- The concrete scenario: `n_bins = 3`, all weights 1, unit population
snapshots, processed by a single `start_accumulation` on a fresh
accumulator. -/
def scenRun : Except PyErr (Accum × List Rec) :=
  startAccumulation scenAssign scenWeights scenPops 0 (mkAccum 3 true 524288)

def burstAssign : List Nat := [0, 1, 0, 1]

/-- An alternating segment run at a given buffer capacity. -/
def burstRun (bs : Nat) : Except PyErr (Accum × List Rec) :=
  startAccumulation burstAssign (List.replicate 4 1) (burstAssign.map unitPops) 0
    (mkAccum 2 true bs)

def pairRun : Except PyErr (Accum × List Rec) :=
  startAccumulation [0, 1] [1, 1] ([0, 1].map unitPops) 0 (mkAccum 2 true 524288)

def pairPr : Accum × List Rec := (accumOf pairRun (mkAccum 2 true 524288), emittedOf pairRun)

def returnRun : Except PyErr (Accum × List Rec) :=
  startAccumulation [0, 1, 0] [1, 1, 1] ([0, 1, 0].map unitPops) 0 (mkAccum 2 true 524288)

def demoOps : List Op := [Op.start scenAssign scenWeights scenPops 0]

def heapDemo0 : MAcc × Heap := mMake 2 false

def heapDemo1 : MAcc × Heap :=
  mStart [0, 1, 0] [1, 1, 1] ([0, 1, 0].map unitPops) 0 heapDemo0.1 heapDemo0.2

def heapSnap : MSnap × Heap := mGetState heapDemo1.1 heapDemo1.2

def heapDemo2 : MAcc := mSetState heapSnap.1 heapDemo1.1

def heapDemo3 : MAcc × Heap := mCont [1] [1] [unitPops 1] 0 heapDemo2 heapSnap.2

def splitStart6 : Except PyErr (Accum × List Rec) :=
  startAccumulation [0, 1] [1, 1] ([0, 1].map unitPops) 0 (mkAccum 3 true 524288)

def splitPr6 : Accum × List Rec :=
  (accumOf splitStart6 (mkAccum 3 true 524288), emittedOf splitStart6)

def contRun6 : Except PyErr (Accum × List Rec) :=
  continueAccumulation [0, 2] [1, 1] ([0, 2].map unitPops) 0 splitPr6.1

def contPr6 : Accum × List Rec :=
  (accumOf contRun6 (mkAccum 3 true 524288), emittedOf contRun6)

def singleRun6 : Except PyErr (Accum × List Rec) :=
  startAccumulation ([0, 1] ++ [0, 2]) ([1, 1] ++ [1, 1])
    (([0, 1].map unitPops) ++ ([0, 2].map unitPops)) 0 (mkAccum 3 true 524288)

def singlePr6 : Accum × List Rec :=
  (accumOf singleRun6 (mkAccum 3 true 524288), emittedOf singleRun6)

def emptyCursorAcc : Accum :=
  { mkAccum 2 true 100 with timepoint := 5, last_bin := some 1, last_bin_pop := some 1 }

/-- Claim C1 (amended): for every crossing processed by `start_accumulation`
or `continue_accumulation`, after the step-1 updates, the set of bins `i`
receiving an `i → fbin` record is exactly
`{ i | last_exit[i] > 0 and last_entry[i] > last_completion[i][fbin] }` —
the condition reads `last_entry[i]` (re-entry into the candidate initial
bin), not `last_entry[fbin]` as the original claim stated.  Formally: the
emitted records of either entry point project, crossing by crossing, to the
triples of the specification-level recursion `specTriples`, which emits
exactly the `completedSet` of each crossing. -/
theorem c1_completed_sets (assignments : List Nat) (weights : List Rat)
    (bin_pops : List (Nat → Rat)) (blk : Nat) (a : Accum) (pr : Accum × List Rec) :
    (startAccumulation assignments weights bin_pops blk a = .ok pr →
      pr.2.map recTriple
        = specTriples a.n_bins
            (crossings (mkSamples (List.range assignments.length) assignments weights bin_pops))
            zeroArrays) ∧
    (∀ lb lbp, a.last_bin = some lb → a.last_bin_pop = some lbp →
      continueAccumulation assignments weights bin_pops blk a = .ok pr →
      pr.2.map recTriple
        = specTriples a.n_bins
            (crossings (mkSamples (List.range' a.timepoint (assignments.length + 1))
              (lb :: assignments) ((0 : Rat) :: weights)
              ((fun i => if i = lb then lbp else 0) :: bin_pops)))
            a.arrs) := by
  constructor
  · intro h
    unfold startAccumulation at h
    have he := accumulateTransitions_emitted blk _ (clearStateA a) pr h
    rw [he]
    simp only [clearStateA_n_bins, clearStateA_calc_fpts, clearStateA_arrs,
      clearStateA_n_trans]
    exact emitSpec_triples a.n_bins a.calc_fpts blk _ zeroArrays a.n_trans
  · intro lb lbp hlb hlbp h
    cases bin_pops with
    | nil =>
        unfold continueAccumulation at h
        rw [hlb] at h
        dsimp only at h
        exact absurd h (by simp)
    | cons p0 ps =>
        rw [continueAccumulation_eq assignments weights (p0 :: ps) blk a lb lbp hlb hlbp
          (by simp)] at h
        have he := accumulateTransitions_emitted blk _ a pr h
        rw [he]
        exact emitSpec_triples a.n_bins a.calc_fpts blk _ a.arrs a.n_trans

theorem c1_witness :
    pairPr.2.map recTriple
      = specTriples 2 (crossings (mkSamples (List.range 2) [0, 1] [1, 1]
          ([0, 1].map unitPops))) zeroArrays :=
  (c1_completed_sets [0, 1] [1, 1] ([0, 1].map unitPops) 0 (mkAccum 2 true 524288) pairPr).1 rfl

/-- Counterexample to claim C1 as stated: on the trajectory `[0, 1]` the
single crossing (timepoint 1, `0 → 1`) satisfies the claim's condition
`last_exit[0] > 0` and `last_entry[1] > last_completion[0][1]` after step 1,
so the claim demands a `0 → 1` record; the code emits no record at all
(because `last_entry[0] = 0`). -/
theorem c1_counterexample :
    claimEligible (step1 zeroArrays ⟨1, 1, 0, 1, unitPops 0⟩) 1 0 = true ∧
    (crossings (mkSamples (List.range 2) [0, 1] [1, 1] ([0, 1].map unitPops))).map
        (fun c => (c.t, c.ibin, c.fbin)) = [(1, 0, 1)] ∧
    emittedOf pairRun = [] := by
  decide

/-- Claim C2 (amended): on the concrete scenario (`n_bins = 3`, assignments
`[0,0,1,1,2,2,1,0]`, all weights 1, unit population snapshots) the code
emits exactly six records: `1→2` at timepoint 4 (duration 1), `1→1` and
`2→1` at timepoint 6 (durations 3 and 1), and `0→0`, `1→0`, `2→0` at
timepoint 7 (durations 6, 1, 2).  No record is emitted at timepoint 2, and
no `0→1` or `0→2` record occurs. -/
theorem c2_actual_records :
    emittedOf scenRun =
      [⟨0, 4, 1, 2, 1, 1, 1, 1, 0⟩, ⟨0, 6, 1, 1, 1, 1, 1, 3, 0⟩, ⟨0, 6, 2, 1, 1, 1, 1, 1, 0⟩,
       ⟨0, 7, 0, 0, 1, 1, 1, 6, 0⟩, ⟨0, 7, 1, 0, 1, 1, 1, 1, 0⟩, ⟨0, 7, 2, 0, 1, 1, 1, 2, 0⟩] := by
  decide

/-- Counterexample to claim C2 as stated: the scenario run emits no `0→1`
record, no `0→2` record, and nothing at timepoint 2. -/
theorem c2_counterexample :
    (emittedOf scenRun).countP
        (fun r => decide (r.initial_bin = 0) && decide (r.final_bin = 1)) = 0 ∧
    (emittedOf scenRun).countP
        (fun r => decide (r.initial_bin = 0) && decide (r.final_bin = 2)) = 0 ∧
    (emittedOf scenRun).countP (fun r => decide (r.timepoint = 2)) = 0 := by
  decide

/-- Claim C3 (amended): crossing detection itself never produces a
self-crossing — every crossing extracted from a sample sequence has
`ibin ≠ fbin` — but emitted records can still have
`initial_bin = final_bin` (see the counterexample), because a crossing into
`fbin` completes `fbin → fbin` whenever `fbin` was exited earlier and
re-entered since the last `fbin → fbin` completion. -/
theorem c3_no_self_crossings : ∀ (samples : List Sample), ∀ c ∈ crossings samples,
    c.ibin ≠ c.fbin
  | [] => by simp [crossings]
  | [s] => by simp [crossings]
  | s0 :: s1 :: rest => by
      intro c hc
      have hm : c ∈ (if s0.bin ≠ s1.bin then [⟨s1.t, s1.w, s0.bin, s1.bin, s0.pops⟩] else [])
          ++ crossings (s1 :: rest) := hc
      rcases List.mem_append.mp hm with h | h
      · by_cases hb : s0.bin ≠ s1.bin
        · rw [if_pos hb] at h
          have hce : c = ⟨s1.t, s1.w, s0.bin, s1.bin, s0.pops⟩ := List.mem_singleton.mp h
          rw [hce]
          exact hb
        · rw [if_neg hb] at h
          simp at h
      · exact c3_no_self_crossings (s1 :: rest) c h

theorem c3_witness :
    (⟨1, 1, 0, 1, unitPops 0⟩ : Crossing).ibin ≠ (⟨1, 1, 0, 1, unitPops 0⟩ : Crossing).fbin :=
  c3_no_self_crossings [⟨0, 0, 1, unitPops 0⟩, ⟨1, 1, 1, unitPops 1⟩] ⟨1, 1, 0, 1, unitPops 0⟩
    (List.mem_singleton.mpr rfl)

/-- Counterexample to claim C3 as stated: the trajectory `[0, 1, 0]` emits a
record with `initial_bin = final_bin = 0` at timepoint 2 (bin 0 was exited
at timepoint 1 and re-entered at timepoint 2). -/
theorem c3_counterexample :
    (Rec.mk 0 2 0 0 1 1 1 2 0) ∈ emittedOf returnRun ∧
    (Rec.mk 0 2 0 0 1 1 1 2 0).initial_bin = (Rec.mk 0 2 0 0 1 1 1 2 0).final_bin := by
  decide

/-- Claim C5 (code bug): the same input `[0, 1, 0, 1]` written with buffer
capacity 10 produces ten records in the store after the final flush — the
loop's mid-call `record_transition_data(tdat)` never clears `tdat`, so the
records accumulated so far are written again by every later call — while
capacity 1000000 produces the four records actually emitted.  The emitted
sequence itself is capacity-independent; only the written output differs. -/
theorem c5_capacity_changes_written_output :
    outputOf (burstRun 10) ≠ outputOf (burstRun 1000000) ∧
    (outputOf (burstRun 10)).length = 10 ∧
    (outputOf (burstRun 1000000)).length = 4 ∧
    emittedOf (burstRun 10) = emittedOf (burstRun 1000000) := by
  decide

/-- Claim C6 witness run: splitting `[0,1,0,2]` as `[0,1]` then `[0,2]`. -/
theorem c6_witness :
    singlePr6.2 = splitPr6.2 ++ contPr6.2 ∧
    singlePr6.1.n_trans 0 1 = contPr6.1.n_trans 0 1 ∧
    singlePr6.1.timepoint = contPr6.1.timepoint ∧
    singlePr6.1.last_bin = contPr6.1.last_bin ∧
    singlePr6.1.last_bin_pop = contPr6.1.last_bin_pop := by
  have h := c6_continuation_equivalence [0, 1] [0, 2] [1, 1] [1, 1]
    ([0, 1].map unitPops) ([0, 2].map unitPops) 0 (mkAccum 3 true 524288)
    singlePr6 splitPr6 contPr6 (by decide) (by decide) rfl rfl rfl rfl rfl rfl rfl
  exact ⟨h.1, h.2.1 0 1, h.2.2.1, h.2.2.2.1, h.2.2.2.2⟩

/-- Claim C7: after any sequence of the five accumulator calls on a fresh
accumulator, `n_trans[i][j]` equals the number of records emitted so far
with those indices; a further call never decreases any entry, and `clear()`
resets all entries to zero. -/
theorem c7_count_consistency (nb : Nat) (fp : Bool) (bs : Nat) (ops : List Op) (i j : Nat) :
    match runOps (mkAccum nb fp bs) ops with
    | .ok pr =>
        pr.1.n_trans i j = histo pr.2 i j ∧
        (∀ op pr', runOp pr.1 op = .ok pr' → pr.1.n_trans i j ≤ pr'.1.n_trans i j) ∧
        (clearA pr.1).n_trans i j = 0
    | .error _ => True := by
  cases hr : runOps (mkAccum nb fp bs) ops with
  | error e => trivial
  | ok pr =>
      refine ⟨?_, ?_, rfl⟩
      · have hc := runOps_count ops (mkAccum nb fp bs) pr hr i j
        simpa [mkAccum] using hc
      · intro op pr' h'
        have hc := runOp_count pr.1 op pr' h' i j
        omega

theorem c7_witness :
    (accumOf (runOps (mkAccum 3 true 524288) demoOps) (mkAccum 3 true 524288)).n_trans 1 2
        = histo (emittedOf (runOps (mkAccum 3 true 524288) demoOps)) 1 2 ∧
    (clearA (accumOf (runOps (mkAccum 3 true 524288) demoOps)
        (mkAccum 3 true 524288))).n_trans 1 2 = 0 := by
  have h := c7_count_consistency 3 true 524288 demoOps 1 2
  exact ⟨h.1, h.2.2⟩

/-- Claim C8: every record emitted over any sequence of calls on a fresh
accumulator has duration at least 1 (snapshots passed to `set_state` are
required to satisfy the invariant `last_exit[i] ≤ timepoint` that every
`get_state` snapshot of a reachable state satisfies). -/
theorem c8_duration_positive (nb : Nat) (fp : Bool) (bs : Nat) (ops : List Op)
    (hset : ∀ ar tp lb lbp, Op.setState ar tp lb lbp ∈ ops → ∀ i, ar.last_exit i ≤ tp) :
    ∀ r ∈ emittedOf (runOps (mkAccum nb fp bs) ops), 1 ≤ r.duration := by
  intro r hr
  cases hro : runOps (mkAccum nb fp bs) ops with
  | error e => rw [hro] at hr; simp [emittedOf] at hr
  | ok pr =>
      rw [hro] at hr
      have hd := runOps_dur ops (mkAccum nb fp bs) pr (fun _ => Nat.le_refl 0) hset hro
      exact hd.1 r hr

theorem c8_witness : 1 ≤ (Rec.mk 0 4 1 2 1 1 1 1 0).duration :=
  c8_duration_positive 3 true 524288 demoOps
    (by intro ar tp lb lbp hmem; simp [demoOps] at hmem) (Rec.mk 0 4 1 2 1 1 1 1 0) (by decide)

/-- Claim C9 (amended): `continue_accumulation` with an unset cursor fails —
but with the `TypeError` numpy raises when `None` is written into the
integer assignments array, not with an explicit "no prior state" error —
and it touches no state before raising. -/
theorem c9_unset_cursor_raises_typeerror (assignments : List Nat) (weights : List Rat)
    (bin_pops : List (Nat → Rat)) (blk : Nat) (a : Accum) (h : a.last_bin = none) :
    continueAccumulation assignments weights bin_pops blk a = .error .typeError := by
  unfold continueAccumulation
  rw [h]

theorem c9_witness :
    continueAccumulation [0] [1] [unitPops 0] 0 (mkAccum 2 true 100) = .error .typeError :=
  c9_unset_cursor_raises_typeerror [0] [1] [unitPops 0] 0 (mkAccum 2 true 100) rfl

/-- Counterexample to claim C9 as stated: the error actually raised is the
incidental `TypeError`, not the explicit "no prior state" error the claim
describes. -/
theorem c9_counterexample :
    continueAccumulation [0] [1] [unitPops 0] 3 (mkAccum 2 true 100) = .error PyErr.typeError ∧
    PyErr.typeError ≠ PyErr.noPriorState :=
  ⟨rfl, by decide⟩

/-- Claim C10 (amended): `start_accumulation` on a zero-length assignments
array raises `IndexError` (at `timepoints[-1]`) instead of completing as a
no-op; `continue_accumulation` on a zero-length segment (with an
established cursor, so the `TypeError` path is not taken) does not complete
either — it raises `IndexError` already when the `aug_pops` allocation
evaluates `len(bin_pops[0])` on the empty array, before
`_accumulate_transitions` runs and before any accumulator state is
touched. -/
theorem c10_empty_input (ws : List Rat) (ps : List (Nat → Rat)) (blk : Nat) (a : Accum)
    (lb : Nat) (hlb : a.last_bin = some lb) :
    startAccumulation [] ws ps blk a = .error .indexError ∧
    continueAccumulation [] [] [] blk a = .error .indexError := by
  constructor
  · rfl
  · unfold continueAccumulation
    rw [hlb]

theorem c10_witness :
    startAccumulation [] [1] [unitPops 0] 0 emptyCursorAcc = .error .indexError ∧
    continueAccumulation [] [] [] 0 emptyCursorAcc = .error .indexError :=
  c10_empty_input [1] [unitPops 0] 0 emptyCursorAcc 1 rfl

/-- Counterexample to claim C10 as stated: with a valid cursor,
`continue_accumulation` on a zero-length segment does not complete and
leave the accumulator unchanged — it raises `IndexError` (from
`len(bin_pops[0])` on the empty population array). -/
theorem c10_counterexample :
    continueAccumulation [] [] [] 0 emptyCursorAcc = .error PyErr.indexError ∧
    continueAccumulation [] [] [] 0 emptyCursorAcc ≠ .ok (emptyCursorAcc, []) :=
  ⟨rfl, fun h => Except.noConfusion
    ((rfl : continueAccumulation [] [] [] 0 emptyCursorAcc
        = Except.error PyErr.indexError).symm.trans h)⟩

/-- Claim C4 (amended): a snapshot returned by `get_state` shares no storage
with the live accumulator, and its contents survive any subsequent sequence
of calls that does not pass a snapshot with the same storage back to
`set_state`.  (A snapshot passed to `set_state` becomes aliased with the
live accumulator and is mutated by subsequent accumulation — see the
counterexample.) -/
theorem c4_get_state_snapshots_stable (m : MAcc) (h : Heap) (mops : List MOp)
    (href : m.ref < h.next)
    (hnos : ∀ s, MOp.setState s ∈ mops → s.ref ≠ (mGetState m h).1.ref) :
    (runMOps mops m (mGetState m h).2).2.mem (mGetState m h).1.ref
      = (mGetState m h).2.mem (mGetState m h).1.ref := by
  have hp := runMOps_preserve mops m (mGetState m h).2 h.next
    (by show h.next < h.next + 1; omega) (by omega) hnos
  exact hp.1

theorem c4_witness :
    (runMOps [MOp.cont [1] [1] [unitPops 1] 0] heapDemo1.1
        (mGetState heapDemo1.1 heapDemo1.2).2).2.mem (mGetState heapDemo1.1 heapDemo1.2).1.ref
      = (mGetState heapDemo1.1 heapDemo1.2).2.mem (mGetState heapDemo1.1 heapDemo1.2).1.ref :=
  c4_get_state_snapshots_stable heapDemo1.1 heapDemo1.2 [MOp.cont [1] [1] [unitPops 1] 0]
    (by decide) (by intro s hs; simp at hs)

/-- Counterexample to claim C4 as stated: `set_state(s)` installs `s`'s
arrays without copying, so the live accumulator aliases the snapshot
(`heapDemo2.ref = heapSnap.1.ref`); the following `continue_accumulation`
call then changes the snapshot's stored `last_exit[0]` from 1 to 3. -/
theorem c4_counterexample :
    heapDemo2.ref = heapSnap.1.ref ∧
    (heapSnap.2.mem heapSnap.1.ref).last_exit 0 = 1 ∧
    (heapDemo3.2.mem heapSnap.1.ref).last_exit 0 = 3 := by
  refine ⟨rfl, ?_, ?_⟩ <;> decide

end Transacc
